import Mathlib

/-!
# Verification of the rx-rs regular-expression engine

A shallow embedding of the two source files of the `rx-rs` repository:

* `src/parse.rs` — the pattern compiler `parse_re`, turning a pattern
  string into a list of quantified matcher nodes;
* `src/rx_match.rs` — the backtracking matcher (`matches_string_at_index`,
  `Re::backtrack`, `Re::test_internal`, `test_re`).

Rust `Vec`s used as stacks (`stack` in `parse_re`, `backtrack_stack` in the
matcher, where push/pop act on the *end* of the vector) are embedded as Lean
lists whose *head* is the top of the stack; vectors used as growable output
buffers in their original order (`consumptions`, the per-level node lists)
keep the Rust element order, so a Rust `push` is `++ [x]` and a Rust `pop`
takes the last element.  The matcher's `VecDeque` queue keeps front = head.

Rust panics (`Option::unwrap` on `None`) are modelled by an explicit
`crashed` outcome; the matcher's `while` loop is given an explicit fuel
parameter (it has no syntactic termination measure), and termination is
proved as a theorem: enough fuel always exists.
-/

namespace Rx

/-- `Quantifier` from `src/parse.rs`. -/
inductive Quantifier : Type where
  | ExactlyOne : Quantifier
  | ZeroOrOne : Quantifier
  | ZeroOrMore : Quantifier
deriving DecidableEq, Repr

mutual
/-- `MatcherKind` from `src/parse.rs` (`Wildcard`, `Element(char)`,
`Group(Vec<Matcher>)`). -/
inductive MatcherKind : Type where
  | Wildcard : MatcherKind
  | Element : Char → MatcherKind
  | Group : List Matcher → MatcherKind

/-- `Matcher` from `src/parse.rs`: a quantifier together with a kind. -/
inductive Matcher : Type where
  | mk : Quantifier → MatcherKind → Matcher
end

/-- Field accessor `Matcher.quantifier`. -/
def Matcher.quantifier : Matcher → Quantifier
  | .mk q _ => q

/-- Field accessor `Matcher.matcher_kind`. -/
def Matcher.matcher_kind : Matcher → MatcherKind
  | .mk _ k => k

/-- `Matcher::wildcard` constructor helper. -/
def Matcher.wildcard (q : Quantifier) : Matcher := .mk q .Wildcard

/-- `Matcher::element` constructor helper. -/
def Matcher.element (c : Char) (q : Quantifier) : Matcher := .mk q (.Element c)

/-- `Matcher::group` constructor helper. -/
def Matcher.group (items : List Matcher) (q : Quantifier) : Matcher :=
  .mk q (.Group items)

/-- Outcome of `parse_re`: `Ok(Vec<Matcher>)`, `Err(String)`, or a Rust
panic (`unwrap` on `None`), modelled explicitly as `crashed`. -/
inductive ParseOutcome : Type where
  | ok : List Matcher → ParseOutcome
  | err : String → ParseOutcome
  | crashed : ParseOutcome

/-- Rust `str::len()` of a pattern given as its character list: the UTF-8
byte length (`Char.utf8Size` bytes per character). -/
def utf8Len (cs : List Char) : Nat := (cs.map Char.utf8Size).sum

/-- The body of the `for next in re.chars()` loop of `parse_re`, processing
the remaining characters `rest` of the full pattern `re`, with the running
index counter `i` and the stack of in-progress levels (head = top level;
inside a level, Rust `Vec` order is kept, so append is at the end).

Mirrors `src/parse.rs` arm by arm; note that the `'\\'` arm reads
`re.chars().nth(i + 1)` from the *full* pattern and bumps `i` by 2, but the
`for` loop itself still advances by a single character. -/
def parseLoop (re : List Char) : List Char → Nat → List (List Matcher) → ParseOutcome
  | [], _, stack =>
    match stack with
    | [lvl] => .ok lvl
    | _ => .err "Unmatched groups in regular expression"
  | next :: rest, i, stack =>
    match stack with
    | [] => .crashed
    | lvl :: ls =>
      match next with
      | '.' => parseLoop re rest (i + 1) ((lvl ++ [Matcher.wildcard .ExactlyOne]) :: ls)
      | '\\' =>
        if utf8Len re ≤ i + 1 then
          .err ("Bad escape character at index " ++ toString i)
        else
          match re.get? (i + 1) with
          | none => .crashed
          | some c =>
            parseLoop re rest (i + 2) ((lvl ++ [Matcher.element c .ExactlyOne]) :: ls)
      | '(' => parseLoop re rest (i + 1) ([] :: lvl :: ls)
      | ')' =>
        match ls with
        | [] => .err ("No group to close at index " ++ toString i)
        | parent :: ps =>
          parseLoop re rest (i + 1) ((parent ++ [Matcher.group lvl .ExactlyOne]) :: ps)
      | '?' =>
        match lvl.getLast? with
        | none => .crashed
        | some lastElem =>
          if lastElem.quantifier ≠ .ExactlyOne then
            .err "Quantifier must follow an unqualified element or group"
          else
            parseLoop re rest (i + 1)
              ((lvl.dropLast ++ [Matcher.mk .ZeroOrOne lastElem.matcher_kind]) :: ls)
      | '*' =>
        match lvl.getLast? with
        | none => .crashed
        | some lastElem =>
          if lastElem.quantifier ≠ .ExactlyOne then
            .err "Quantifier must follow an unqualified element or group"
          else
            parseLoop re rest (i + 1)
              ((lvl.dropLast ++ [Matcher.mk .ZeroOrMore lastElem.matcher_kind]) :: ls)
      | '+' =>
        match lvl.getLast? with
        | none => .crashed
        | some lastElem =>
          if lastElem.quantifier ≠ .ExactlyOne then
            .err "Quantifier must follow an unqualified element or group"
          else
            parseLoop re rest (i + 1)
              ((lvl ++ [Matcher.mk .ZeroOrMore lastElem.matcher_kind]) :: ls)
      | _ => parseLoop re rest (i + 1) ((lvl ++ [Matcher.element next .ExactlyOne]) :: ls)

/-- `parse_re` from `src/parse.rs`: run the character loop starting from a
single empty root level. -/
def parse_re (re : List Char) : ParseOutcome := parseLoop re re 0 [[]]

/-- `BacktrackState` from `src/rx_match.rs`.  `consumptions` keeps the Rust
`Vec` order: index 0 is the oldest entry, Rust `push`/`pop` act on the end. -/
structure BacktrackState : Type where
  is_backtrackable : Bool
  matcher : Matcher
  consumptions : List Nat

/-- `Re` from `src/rx_match.rs`: the matcher state.  The `VecDeque` queue
has its front at the head; the `backtrack_stack` has its top at the head. -/
structure Re : Type where
  i : Nat
  queue : List Matcher
  current_state : Option Matcher
  backtrack_stack : List BacktrackState

/-- `Re::new`. -/
def Re.new (states : List Matcher) : Re :=
  { i := 0, queue := states, current_state := none, backtrack_stack := [] }

/-- The `while self.backtrack_stack.len() > 0` loop of `Re::backtrack`,
threading the stack, the queue and the offset; the final `Bool` is
`could_backtrack`.  A non-backtrackable frame's `for n in consumptions
{ self.i -= n }` is the single truncated subtraction of the sum (in `Nat`,
`a - n₁ - n₂ = a - (n₁ + n₂)`). -/
def backtrackLoop :
    List BacktrackState → List Matcher → Nat →
      List BacktrackState × List Matcher × Nat × Bool
  | [], queue, i => ([], queue, i, false)
  | f :: rest, queue, i =>
    if f.is_backtrackable then
      match f.consumptions.getLast? with
      | none => backtrackLoop rest (f.matcher :: queue) i
      | some n =>
        (⟨f.is_backtrackable, f.matcher, f.consumptions.dropLast⟩ :: rest,
          queue, i - n, true)
    else
      backtrackLoop rest (f.matcher :: queue) (i - f.consumptions.sum)

/-- `Re::backtrack`.  At every call site `self.current_state` is
`Some(cur)`; the initial `push_front` of the current state is made explicit.
When a retraction was found, the next current state is popped off the front
of the queue; otherwise the fields stay as the loop left them. -/
def Re.backtrack (st : Re) (cur : Matcher) : Re × Bool :=
  match backtrackLoop st.backtrack_stack (cur :: st.queue) st.i with
  | (stk, q, j, true) =>
    ({ i := j, queue := q.tail, current_state := q.head?, backtrack_stack := stk }, true)
  | (stk, q, j, false) =>
    ({ i := j, queue := q, current_state := st.current_state, backtrack_stack := stk }, false)

/-- The call shapes of the mutually recursive functions of
`src/rx_match.rs`: `matches_string_at_index`, `Re::new(..).test_internal`,
the greedy `ZeroOrMore` repetition loop, one iteration of the `while` loop
of `test_internal`, and the `while` loop itself.  They are evaluated by the
single fuel-indexed interpreter `exec` below so that evaluation is
structurally recursive on the fuel. -/
inductive MCall : Type where
  | matchesC : Matcher → List Char → Nat → MCall
  | testC : List Matcher → List Char → MCall
  | greedyC : Matcher → List Char → Nat → List Nat → MCall
  | stepC : Matcher → Re → List Char → MCall
  | runC : Re → List Char → MCall

/-- Result type of each call shape. -/
def MCall.Res : MCall → Type
  | .matchesC _ _ _ => Except String (Bool × Nat)
  | .testC _ _ => Except String (Bool × Nat)
  | .greedyC _ _ _ _ => Except String (Nat × List Nat × Bool)
  | .stepC _ _ _ => Except String (Re ⊕ Bool × Nat)
  | .runC _ _ => Except String (Bool × Nat)

/-- Fuel-indexed evaluator for the matcher of `src/rx_match.rs`; `none`
means the fuel ran out (each recursive call costs one unit).  The branches
mirror the Rust source arm by arm; see the named wrappers below. -/
def exec : (fuel : Nat) → (c : MCall) → Option c.Res
  | 0, _ => none
  | fuel + 1, c =>
    match c with
    | .matchesC m s i =>
      if h : s.length ≤ i then some (.ok (false, 0))
      else
        match m.matcher_kind with
        | .Wildcard => some (.ok (true, 1))
        | .Element c =>
          if c = s.get ⟨i, Nat.lt_of_not_le h⟩ then some (.ok (true, 1))
          else some (.ok (false, 0))
        | .Group items => exec fuel (.testC items (s.drop i))
    | .testC items s =>
      exec fuel (.runC
        { i := 0, queue := items.tail, current_state := items.head?,
          backtrack_stack := [] } s)
    | .greedyC cur s i cs =>
      if s.length ≤ i then
        some (.ok (if cs.isEmpty then (i, [0], false) else (i, cs, true)))
      else
        match exec fuel (.matchesC cur s i) with
        | none => none
        | some (.error e) => some (.error e)
        | some (.ok (is_match, consumed)) =>
          if is_match = false ∨ consumed = 0 then
            some (.ok (if cs.isEmpty then (i, [0], false) else (i, cs, true)))
          else
            exec fuel (.greedyC cur s (i + consumed) (cs ++ [consumed]))
    | .stepC cur st s =>
      match cur.quantifier with
      | .ExactlyOne =>
        match exec fuel (.matchesC cur s st.i) with
        | none => none
        | some (.error e) => some (.error e)
        | some (.ok (is_match, consumed)) =>
          if is_match = false then
            match st.backtrack cur with
            | (st', true) => some (.ok (.inl st'))
            | (_, false) => some (.ok (.inr (false, st.i)))
          else
            some (.ok (.inl
              { i := st.i + consumed, queue := st.queue.tail,
                current_state := st.queue.head?,
                backtrack_stack := ⟨false, cur, [consumed]⟩ :: st.backtrack_stack }))
      | .ZeroOrOne =>
        if s.length ≤ st.i then
          some (.ok (.inl
            { i := st.i, queue := st.queue.tail, current_state := st.queue.head?,
              backtrack_stack := ⟨false, cur, [0]⟩ :: st.backtrack_stack }))
        else
          match exec fuel (.matchesC cur s st.i) with
          | none => none
          | some (.error e) => some (.error e)
          | some (.ok (is_match, consumed)) =>
            some (.ok (.inl
              { i := st.i + consumed, queue := st.queue.tail,
                current_state := st.queue.head?,
                backtrack_stack :=
                  ⟨is_match && decide (0 < consumed), cur, [consumed]⟩ ::
                    st.backtrack_stack }))
      | .ZeroOrMore =>
        match exec fuel (.greedyC cur s st.i []) with
        | none => none
        | some (.error e) => some (.error e)
        | some (.ok (i', cs, b)) =>
          some (.ok (.inl
            { i := i', queue := st.queue.tail, current_state := st.queue.head?,
              backtrack_stack := ⟨b, cur, cs⟩ :: st.backtrack_stack }))
    | .runC st s =>
      match st.current_state with
      | none => some (.ok (true, st.i))
      | some cur =>
        match exec fuel (.stepC cur st s) with
        | none => none
        | some (.error e) => some (.error e)
        | some (.ok (.inl st')) => exec fuel (.runC st' s)
        | some (.ok (.inr r)) => some (.ok r)

/-- `matches_string_at_index` from `src/rx_match.rs`: returns `(false, 0)`
when the offset is at or past the end of the subject, otherwise dispatches
on the matcher kind; a `Group` recursively runs a fresh matcher over the
remaining slice. -/
def matchesStringAtIndex (fuel : Nat) (m : Matcher) (s : List Char) (i : Nat) :
    Option (Except String (Bool × Nat)) :=
  exec fuel (.matchesC m s i)

/-- `Re::new(items).test_internal(s)`: pop the first pending node into
`current_state`, then run the `while` loop. -/
def testInternal (fuel : Nat) (items : List Matcher) (s : List Char) :
    Option (Except String (Bool × Nat)) :=
  exec fuel (.testC items s)

/-- The greedy repetition loop of the `Quantifier::ZeroOrMore` arm of
`test_internal`: starting at offset `i` with accumulated consumption list
`cs`, repeat until the subject is exhausted, the attempt fails, or the
attempt consumes nothing; returns the final offset, the final consumption
list and the frame's `is_backtrackable` flag (`false`, with a single `0`
consumption pushed, when no repetition occurred). -/
def greedy (fuel : Nat) (cur : Matcher) (s : List Char) (i : Nat) (cs : List Nat) :
    Option (Except String (Nat × List Nat × Bool)) :=
  exec fuel (.greedyC cur s i cs)

/-- One iteration of the `while self.current_state.is_some()` loop of
`test_internal`, for current node `cur` (with `st.current_state = some cur`
at every call site): returns either the state at the start of the next
iteration (`Sum.inl`) or the loop's returned value (`Sum.inr`). -/
def stepOnce (fuel : Nat) (cur : Matcher) (st : Re) (s : List Char) :
    Option (Except String (Re ⊕ Bool × Nat)) :=
  exec fuel (.stepC cur st s)

/-- The `while self.current_state.is_some()` loop of `test_internal`,
spending one unit of fuel per iteration; when the queue is exhausted the
match succeeds with the current offset. -/
def runLoop (fuel : Nat) (st : Re) (s : List Char) :
    Option (Except String (Bool × Nat)) :=
  exec fuel (.runC st s)


/-- Outcome of `test_re`: `Ok(Option<usize>)`, `Err(String)`, or a panic
propagated from `parse_re`. -/
inductive TestResult : Type where
  | ok : Option Nat → TestResult
  | err : String → TestResult
  | crashed : TestResult

/-- `test_re` from `src/rx_match.rs`: compile the pattern (propagating its
error), then run the matcher over the subject's characters; `(true, i)`
becomes `Ok(Some(i))`, any other match result becomes `Ok(None)`. -/
def test_re (fuel : Nat) (re s : String) : Option TestResult :=
  match parse_re re.toList with
  | .crashed => some .crashed
  | .err e => some (.err e)
  | .ok states =>
    match testInternal fuel states s.toList with
    | none => none
    | some (.error e) => some (.err e)
    | some (.ok (true, i)) => some (.ok (some i))
    | some (.ok (false, _)) => some (.ok none)

/-! ## Unfolding equations for the fuel-indexed matcher -/

theorem matchesStringAtIndex_zero (m : Matcher) (s : List Char) (i : Nat) :
    matchesStringAtIndex 0 m s i = none := rfl

theorem matchesStringAtIndex_succ (fuel : Nat) (m : Matcher) (s : List Char) (i : Nat) :
    matchesStringAtIndex (fuel + 1) m s i =
      if h : s.length ≤ i then some (.ok (false, 0))
      else
        match m.matcher_kind with
        | .Wildcard => some (.ok (true, 1))
        | .Element c =>
          if c = s.get ⟨i, Nat.lt_of_not_le h⟩ then some (.ok (true, 1))
          else some (.ok (false, 0))
        | .Group items => testInternal fuel items (s.drop i) := rfl

theorem testInternal_zero (items : List Matcher) (s : List Char) :
    testInternal 0 items s = none := rfl

theorem testInternal_succ (fuel : Nat) (items : List Matcher) (s : List Char) :
    testInternal (fuel + 1) items s =
      runLoop fuel
        { i := 0, queue := items.tail, current_state := items.head?,
          backtrack_stack := [] } s := rfl

theorem greedy_zero (cur : Matcher) (s : List Char) (i : Nat) (cs : List Nat) :
    greedy 0 cur s i cs = none := rfl

/-- What the greedy loop pushes when it stops at offset `i` with
accumulated consumptions `cs`. -/
def greedyStop (i : Nat) (cs : List Nat) : Nat × List Nat × Bool :=
  if cs.isEmpty then (i, [0], false) else (i, cs, true)

theorem greedy_succ_exhausted {s : List Char} {i : Nat} (h : s.length ≤ i)
    (fuel : Nat) (cur : Matcher) (cs : List Nat) :
    greedy (fuel + 1) cur s i cs = some (.ok (greedyStop i cs)) := by
  simp only [greedy, exec, greedyStop, if_pos h]

theorem greedy_succ_none {s : List Char} {i fuel : Nat} {cur : Matcher}
    (h : ¬ s.length ≤ i) (hm : matchesStringAtIndex fuel cur s i = none)
    (cs : List Nat) : greedy (fuel + 1) cur s i cs = none := by
  simp only [matchesStringAtIndex] at hm
  simp only [greedy, exec, if_neg h, hm]

theorem greedy_succ_error {s : List Char} {i fuel : Nat} {cur : Matcher} {e : String}
    (h : ¬ s.length ≤ i) (hm : matchesStringAtIndex fuel cur s i = some (.error e))
    (cs : List Nat) : greedy (fuel + 1) cur s i cs = some (.error e) := by
  simp only [matchesStringAtIndex] at hm
  simp only [greedy, exec, if_neg h, hm]

theorem greedy_succ_stop {s : List Char} {i fuel : Nat} {cur : Matcher}
    {b : Bool} {c : Nat}
    (h : ¬ s.length ≤ i) (hm : matchesStringAtIndex fuel cur s i = some (.ok (b, c)))
    (hstop : b = false ∨ c = 0) (cs : List Nat) :
    greedy (fuel + 1) cur s i cs = some (.ok (greedyStop i cs)) := by
  simp only [matchesStringAtIndex] at hm
  simp only [greedy, exec, greedyStop, if_neg h, hm, if_pos hstop]

theorem greedy_succ_go {s : List Char} {i fuel : Nat} {cur : Matcher}
    {b : Bool} {c : Nat}
    (h : ¬ s.length ≤ i) (hm : matchesStringAtIndex fuel cur s i = some (.ok (b, c)))
    (hgo : ¬ (b = false ∨ c = 0)) (cs : List Nat) :
    greedy (fuel + 1) cur s i cs = greedy fuel cur s (i + c) (cs ++ [c]) := by
  simp only [matchesStringAtIndex] at hm
  simp only [greedy, exec, if_neg h, hm, if_neg hgo]

theorem stepOnce_zero (cur : Matcher) (st : Re) (s : List Char) :
    stepOnce 0 cur st s = none := rfl

theorem stepOnce_one_none {cur : Matcher} {st : Re} {s : List Char} {fuel : Nat}
    (hq : cur.quantifier = .ExactlyOne)
    (hm : matchesStringAtIndex fuel cur s st.i = none) :
    stepOnce (fuel + 1) cur st s = none := by
  simp only [matchesStringAtIndex] at hm
  simp only [stepOnce, exec, hq, hm]

theorem stepOnce_one_error {cur : Matcher} {st : Re} {s : List Char} {fuel : Nat}
    {e : String}
    (hq : cur.quantifier = .ExactlyOne)
    (hm : matchesStringAtIndex fuel cur s st.i = some (.error e)) :
    stepOnce (fuel + 1) cur st s = some (.error e) := by
  simp only [matchesStringAtIndex] at hm
  simp only [stepOnce, exec, hq, hm]

theorem stepOnce_one_fail_bt {cur : Matcher} {st st' : Re} {s : List Char}
    {fuel c : Nat}
    (hq : cur.quantifier = .ExactlyOne)
    (hm : matchesStringAtIndex fuel cur s st.i = some (.ok (false, c)))
    (hb : st.backtrack cur = (st', true)) :
    stepOnce (fuel + 1) cur st s = some (.ok (.inl st')) := by
  simp only [matchesStringAtIndex] at hm
  simp [stepOnce, exec, hq, hm, hb]

theorem stepOnce_one_fail_nobt {cur : Matcher} {st st' : Re} {s : List Char}
    {fuel c : Nat}
    (hq : cur.quantifier = .ExactlyOne)
    (hm : matchesStringAtIndex fuel cur s st.i = some (.ok (false, c)))
    (hb : st.backtrack cur = (st', false)) :
    stepOnce (fuel + 1) cur st s = some (.ok (.inr (false, st.i))) := by
  simp only [matchesStringAtIndex] at hm
  simp [stepOnce, exec, hq, hm, hb]

theorem stepOnce_one_ok {cur : Matcher} {st : Re} {s : List Char} {fuel c : Nat}
    (hq : cur.quantifier = .ExactlyOne)
    (hm : matchesStringAtIndex fuel cur s st.i = some (.ok (true, c))) :
    stepOnce (fuel + 1) cur st s = some (.ok (.inl
      { i := st.i + c, queue := st.queue.tail, current_state := st.queue.head?,
        backtrack_stack := ⟨false, cur, [c]⟩ :: st.backtrack_stack })) := by
  simp only [matchesStringAtIndex] at hm
  simp [stepOnce, exec, hq, hm]

theorem stepOnce_opt_exhausted {cur : Matcher} {st : Re} {s : List Char} {fuel : Nat}
    (hq : cur.quantifier = .ZeroOrOne) (h : s.length ≤ st.i) :
    stepOnce (fuel + 1) cur st s = some (.ok (.inl
      { i := st.i, queue := st.queue.tail, current_state := st.queue.head?,
        backtrack_stack := ⟨false, cur, [0]⟩ :: st.backtrack_stack })) := by
  simp only [stepOnce, exec, hq, if_pos h]

theorem stepOnce_opt_none {cur : Matcher} {st : Re} {s : List Char} {fuel : Nat}
    (hq : cur.quantifier = .ZeroOrOne) (h : ¬ s.length ≤ st.i)
    (hm : matchesStringAtIndex fuel cur s st.i = none) :
    stepOnce (fuel + 1) cur st s = none := by
  simp only [matchesStringAtIndex] at hm
  simp only [stepOnce, exec, hq, if_neg h, hm]

theorem stepOnce_opt_error {cur : Matcher} {st : Re} {s : List Char} {fuel : Nat}
    {e : String}
    (hq : cur.quantifier = .ZeroOrOne) (h : ¬ s.length ≤ st.i)
    (hm : matchesStringAtIndex fuel cur s st.i = some (.error e)) :
    stepOnce (fuel + 1) cur st s = some (.error e) := by
  simp only [matchesStringAtIndex] at hm
  simp only [stepOnce, exec, hq, if_neg h, hm]

theorem stepOnce_opt_attempt {cur : Matcher} {st : Re} {s : List Char} {fuel c : Nat}
    {b : Bool}
    (hq : cur.quantifier = .ZeroOrOne) (h : ¬ s.length ≤ st.i)
    (hm : matchesStringAtIndex fuel cur s st.i = some (.ok (b, c))) :
    stepOnce (fuel + 1) cur st s = some (.ok (.inl
      { i := st.i + c, queue := st.queue.tail, current_state := st.queue.head?,
        backtrack_stack :=
          ⟨b && decide (0 < c), cur, [c]⟩ :: st.backtrack_stack })) := by
  simp only [matchesStringAtIndex] at hm
  simp only [stepOnce, exec, hq, if_neg h, hm]

theorem stepOnce_star_none {cur : Matcher} {st : Re} {s : List Char} {fuel : Nat}
    (hq : cur.quantifier = .ZeroOrMore)
    (hg : greedy fuel cur s st.i [] = none) :
    stepOnce (fuel + 1) cur st s = none := by
  simp only [greedy] at hg
  simp only [stepOnce, exec, hq, hg]

theorem stepOnce_star_error {cur : Matcher} {st : Re} {s : List Char} {fuel : Nat}
    {e : String}
    (hq : cur.quantifier = .ZeroOrMore)
    (hg : greedy fuel cur s st.i [] = some (.error e)) :
    stepOnce (fuel + 1) cur st s = some (.error e) := by
  simp only [greedy] at hg
  simp only [stepOnce, exec, hq, hg]

theorem stepOnce_star_push {cur : Matcher} {st : Re} {s : List Char} {fuel i' : Nat}
    {cs : List Nat} {b : Bool}
    (hq : cur.quantifier = .ZeroOrMore)
    (hg : greedy fuel cur s st.i [] = some (.ok (i', cs, b))) :
    stepOnce (fuel + 1) cur st s = some (.ok (.inl
      { i := i', queue := st.queue.tail, current_state := st.queue.head?,
        backtrack_stack := ⟨b, cur, cs⟩ :: st.backtrack_stack })) := by
  simp only [greedy] at hg
  simp only [stepOnce, exec, hq, hg]

theorem runLoop_zero (st : Re) (s : List Char) : runLoop 0 st s = none := rfl

theorem runLoop_succ_done {st : Re} (h : st.current_state = none)
    (fuel : Nat) (s : List Char) :
    runLoop (fuel + 1) st s = some (.ok (true, st.i)) := by
  simp only [runLoop, exec, h]

theorem runLoop_succ_none {st : Re} {cur : Matcher} {fuel : Nat} {s : List Char}
    (h : st.current_state = some cur) (hs : stepOnce fuel cur st s = none) :
    runLoop (fuel + 1) st s = none := by
  simp only [stepOnce] at hs
  simp only [runLoop, exec, h, hs]

theorem runLoop_succ_error {st : Re} {cur : Matcher} {fuel : Nat} {s : List Char}
    {e : String}
    (h : st.current_state = some cur) (hs : stepOnce fuel cur st s = some (.error e)) :
    runLoop (fuel + 1) st s = some (.error e) := by
  simp only [stepOnce] at hs
  simp only [runLoop, exec, h, hs]

theorem runLoop_succ_inl {st st' : Re} {cur : Matcher} {fuel : Nat} {s : List Char}
    (h : st.current_state = some cur)
    (hs : stepOnce fuel cur st s = some (.ok (.inl st'))) :
    runLoop (fuel + 1) st s = runLoop fuel st' s := by
  simp only [stepOnce] at hs
  simp only [runLoop, exec, h, hs]

theorem runLoop_succ_inr {st : Re} {cur : Matcher} {fuel : Nat} {s : List Char}
    {r : Bool × Nat}
    (h : st.current_state = some cur)
    (hs : stepOnce fuel cur st s = some (.ok (.inr r))) :
    runLoop (fuel + 1) st s = some (.ok r) := by
  simp only [stepOnce] at hs
  simp only [runLoop, exec, h, hs]


/-! ## Fuel monotonicity -/

/-- Once any of the matcher's functions completes within some fuel, any
larger fuel gives the same answer (all five call shapes at once, by
induction on the fuel). -/
theorem mono_all : ∀ f : Nat,
    (∀ f' : Nat, f ≤ f' → ∀ (m : Matcher) (s : List Char) (i : Nat)
      (r : Except String (Bool × Nat)),
      matchesStringAtIndex f m s i = some r → matchesStringAtIndex f' m s i = some r) ∧
    (∀ f' : Nat, f ≤ f' → ∀ (items : List Matcher) (s : List Char)
      (r : Except String (Bool × Nat)),
      testInternal f items s = some r → testInternal f' items s = some r) ∧
    (∀ f' : Nat, f ≤ f' → ∀ (cur : Matcher) (s : List Char) (i : Nat) (cs : List Nat)
      (r : Except String (Nat × List Nat × Bool)),
      greedy f cur s i cs = some r → greedy f' cur s i cs = some r) ∧
    (∀ f' : Nat, f ≤ f' → ∀ (cur : Matcher) (st : Re) (s : List Char)
      (r : Except String (Re ⊕ Bool × Nat)),
      stepOnce f cur st s = some r → stepOnce f' cur st s = some r) ∧
    (∀ f' : Nat, f ≤ f' → ∀ (st : Re) (s : List Char)
      (r : Except String (Bool × Nat)),
      runLoop f st s = some r → runLoop f' st s = some r) := by
  intro f
  induction f with
  | zero =>
    refine ⟨?_, ?_, ?_, ?_, ?_⟩
    · intro f' _ m s i r h; rw [matchesStringAtIndex_zero] at h; simp at h
    · intro f' _ items s r h; rw [testInternal_zero] at h; simp at h
    · intro f' _ cur s i cs r h; rw [greedy_zero] at h; simp at h
    · intro f' _ cur st s r h; rw [stepOnce_zero] at h; simp at h
    · intro f' _ st s r h; rw [runLoop_zero] at h; simp at h
  | succ f ih =>
    obtain ⟨ihM, ihT, ihG, ihS, ihR⟩ := ih
    refine ⟨?_, ?_, ?_, ?_, ?_⟩
    · -- matchesStringAtIndex
      intro f' hle m s i r h
      obtain ⟨f'', rfl⟩ : ∃ g, f' = g + 1 := ⟨f' - 1, by omega⟩
      have hle' : f ≤ f'' := by omega
      rw [matchesStringAtIndex_succ] at h ⊢
      by_cases hc : s.length ≤ i
      · rw [dif_pos hc] at h ⊢; exact h
      · rw [dif_neg hc] at h ⊢
        cases hk : m.matcher_kind with
        | Wildcard => simp only [hk] at h ⊢; exact h
        | Element ch => simp only [hk] at h ⊢; exact h
        | Group items => simp only [hk] at h ⊢; exact ihT f'' hle' _ _ _ h
    · -- testInternal
      intro f' hle items s r h
      obtain ⟨f'', rfl⟩ : ∃ g, f' = g + 1 := ⟨f' - 1, by omega⟩
      have hle' : f ≤ f'' := by omega
      rw [testInternal_succ] at h ⊢
      exact ihR f'' hle' _ _ _ h
    · -- greedy
      intro f' hle cur s i cs r h
      obtain ⟨f'', rfl⟩ : ∃ g, f' = g + 1 := ⟨f' - 1, by omega⟩
      have hle' : f ≤ f'' := by omega
      by_cases hc : s.length ≤ i
      · rw [greedy_succ_exhausted hc] at h ⊢; exact h
      · cases hm : matchesStringAtIndex f cur s i with
        | none => rw [greedy_succ_none hc hm] at h; simp at h
        | some v =>
          cases v with
          | error e =>
            rw [greedy_succ_error hc hm] at h
            rw [greedy_succ_error hc (ihM f'' hle' _ _ _ _ hm)]
            exact h
          | ok p =>
            obtain ⟨b, cnt⟩ := p
            by_cases hbc : b = false ∨ cnt = 0
            · rw [greedy_succ_stop hc hm hbc] at h
              rw [greedy_succ_stop hc (ihM f'' hle' _ _ _ _ hm) hbc]
              exact h
            · rw [greedy_succ_go hc hm hbc] at h
              rw [greedy_succ_go hc (ihM f'' hle' _ _ _ _ hm) hbc]
              exact ihG f'' hle' _ _ _ _ _ h
    · -- stepOnce
      intro f' hle cur st s r h
      obtain ⟨f'', rfl⟩ : ∃ g, f' = g + 1 := ⟨f' - 1, by omega⟩
      have hle' : f ≤ f'' := by omega
      cases hq : cur.quantifier with
      | ExactlyOne =>
        cases hm : matchesStringAtIndex f cur s st.i with
        | none => rw [stepOnce_one_none hq hm] at h; simp at h
        | some v =>
          cases v with
          | error e =>
            rw [stepOnce_one_error hq hm] at h
            rw [stepOnce_one_error hq (ihM f'' hle' _ _ _ _ hm)]
            exact h
          | ok p =>
            obtain ⟨b, cnt⟩ := p
            cases b with
            | false =>
              rcases hb : st.backtrack cur with ⟨st2, could⟩
              cases could with
              | true =>
                rw [stepOnce_one_fail_bt hq hm hb] at h
                rw [stepOnce_one_fail_bt hq (ihM f'' hle' _ _ _ _ hm) hb]
                exact h
              | false =>
                rw [stepOnce_one_fail_nobt hq hm hb] at h
                rw [stepOnce_one_fail_nobt hq (ihM f'' hle' _ _ _ _ hm) hb]
                exact h
            | true =>
              rw [stepOnce_one_ok hq hm] at h
              rw [stepOnce_one_ok hq (ihM f'' hle' _ _ _ _ hm)]
              exact h
      | ZeroOrOne =>
        by_cases hc : s.length ≤ st.i
        · rw [stepOnce_opt_exhausted hq hc] at h
          rw [stepOnce_opt_exhausted hq hc]
          exact h
        · cases hm : matchesStringAtIndex f cur s st.i with
          | none => rw [stepOnce_opt_none hq hc hm] at h; simp at h
          | some v =>
            cases v with
            | error e =>
              rw [stepOnce_opt_error hq hc hm] at h
              rw [stepOnce_opt_error hq hc (ihM f'' hle' _ _ _ _ hm)]
              exact h
            | ok p =>
              obtain ⟨b, cnt⟩ := p
              rw [stepOnce_opt_attempt hq hc hm] at h
              rw [stepOnce_opt_attempt hq hc (ihM f'' hle' _ _ _ _ hm)]
              exact h
      | ZeroOrMore =>
        cases hg : greedy f cur s st.i [] with
        | none => rw [stepOnce_star_none hq hg] at h; simp at h
        | some v =>
          cases v with
          | error e =>
            rw [stepOnce_star_error hq hg] at h
            rw [stepOnce_star_error hq (ihG f'' hle' _ _ _ _ _ hg)]
            exact h
          | ok p =>
            obtain ⟨i', cs, b⟩ := p
            rw [stepOnce_star_push hq hg] at h
            rw [stepOnce_star_push hq (ihG f'' hle' _ _ _ _ _ hg)]
            exact h
    · -- runLoop
      intro f' hle st s r h
      obtain ⟨f'', rfl⟩ : ∃ g, f' = g + 1 := ⟨f' - 1, by omega⟩
      have hle' : f ≤ f'' := by omega
      cases hcur : st.current_state with
      | none =>
        rw [runLoop_succ_done hcur] at h
        rw [runLoop_succ_done hcur]
        exact h
      | some cur =>
        cases hs : stepOnce f cur st s with
        | none => rw [runLoop_succ_none hcur hs] at h; simp at h
        | some v =>
          cases v with
          | error e =>
            rw [runLoop_succ_error hcur hs] at h
            rw [runLoop_succ_error hcur (ihS f'' hle' _ _ _ _ hs)]
            exact h
          | ok x =>
            cases x with
            | inl st2 =>
              rw [runLoop_succ_inl hcur hs] at h
              rw [runLoop_succ_inl hcur (ihS f'' hle' _ _ _ _ hs)]
              exact ihR f'' hle' _ _ _ h
            | inr r2 =>
              rw [runLoop_succ_inr hcur hs] at h
              rw [runLoop_succ_inr hcur (ihS f'' hle' _ _ _ _ hs)]
              exact h

theorem matchesStringAtIndex_mono {f f' : Nat} (hle : f ≤ f') {m : Matcher}
    {s : List Char} {i : Nat} {r : Except String (Bool × Nat)}
    (h : matchesStringAtIndex f m s i = some r) :
    matchesStringAtIndex f' m s i = some r := (mono_all f).1 f' hle m s i r h

theorem testInternal_mono {f f' : Nat} (hle : f ≤ f') {items : List Matcher}
    {s : List Char} {r : Except String (Bool × Nat)}
    (h : testInternal f items s = some r) : testInternal f' items s = some r :=
  (mono_all f).2.1 f' hle items s r h

theorem greedy_mono {f f' : Nat} (hle : f ≤ f') {cur : Matcher} {s : List Char}
    {i : Nat} {cs : List Nat} {r : Except String (Nat × List Nat × Bool)}
    (h : greedy f cur s i cs = some r) : greedy f' cur s i cs = some r :=
  (mono_all f).2.2.1 f' hle cur s i cs r h

theorem stepOnce_mono {f f' : Nat} (hle : f ≤ f') {cur : Matcher} {st : Re}
    {s : List Char} {r : Except String (Re ⊕ Bool × Nat)}
    (h : stepOnce f cur st s = some r) : stepOnce f' cur st s = some r :=
  (mono_all f).2.2.2.1 f' hle cur st s r h

theorem runLoop_mono {f f' : Nat} (hle : f ≤ f') {st : Re} {s : List Char}
    {r : Except String (Bool × Nat)}
    (h : runLoop f st s = some r) : runLoop f' st s = some r :=
  (mono_all f).2.2.2.2 f' hle st s r h

/-- `test_re` is likewise stable under extra fuel. -/
theorem test_re_mono {f f' : Nat} (hle : f ≤ f') {re s : String} {r : TestResult}
    (h : test_re f re s = some r) : test_re f' re s = some r := by
  unfold test_re at h ⊢
  cases hp : parse_re re.toList with
  | crashed => simp only [hp] at h ⊢; exact h
  | err e => simp only [hp] at h ⊢; exact h
  | ok states =>
    simp only [hp] at h ⊢
    cases ht : testInternal f states s.toList with
    | none => simp only [ht] at h; simp at h
    | some v =>
      simp only [ht] at h
      simp only [testInternal_mono hle ht]
      exact h


/-! ## The matcher-state invariant and the backtracking specification -/

/-- Total of all consumption amounts recorded on a backtrack stack. -/
def framesSum (stk : List BacktrackState) : Nat :=
  (stk.map fun fr => fr.consumptions.sum).sum

/-- Well-formedness of a single backtrack frame: a retryable frame only
records real (non-empty) consumptions, and no frame records more entries
than its total consumption plus one (the single `0` padding entry). -/
def FrameOK (fr : BacktrackState) : Prop :=
  (fr.is_backtrackable = true → ∀ n ∈ fr.consumptions, 1 ≤ n) ∧
  fr.consumptions.length ≤ fr.consumptions.sum + 1

instance (fr : BacktrackState) : Decidable (FrameOK fr) := by
  unfold FrameOK; infer_instance

/-- The matcher-run invariant: the current offset equals the total of all
consumptions recorded on the backtrack stack, the offset never exceeds the
subject length, and every frame is well formed. -/
def Inv (st : Re) (s : List Char) : Prop :=
  framesSum st.backtrack_stack = st.i ∧ st.i ≤ s.length ∧
  ∀ fr ∈ st.backtrack_stack, FrameOK fr

instance (st : Re) (s : List Char) : Decidable (Inv st s) := by
  unfold Inv; infer_instance

theorem framesSum_cons (fr : BacktrackState) (stk : List BacktrackState) :
    framesSum (fr :: stk) = fr.consumptions.sum + framesSum stk := by
  simp [framesSum]

theorem framesSum_append (a b : List BacktrackState) :
    framesSum (a ++ b) = framesSum a + framesSum b := by
  simp [framesSum]

/-- When `Re::backtrack`'s loop fails to find a retractable frame it has
drained the whole stack, returned every frame's matcher to the queue front,
and subtracted every recorded consumption from the offset. -/
theorem backtrackLoop_false :
    ∀ {stk : List BacktrackState} {q q' : List Matcher} {i i' : Nat}
      {stk' : List BacktrackState},
      backtrackLoop stk q i = (stk', q', i', false) →
      stk' = [] ∧ q' = (stk.map fun fr => fr.matcher).reverse ++ q ∧
        i' = i - framesSum stk := by
  intro stk
  induction stk with
  | nil =>
    intro q q' i i' stk' h
    simp only [backtrackLoop, Prod.mk.injEq] at h
    obtain ⟨h1, h2, h3, -⟩ := h
    simp [← h1, ← h2, ← h3, framesSum]
  | cons fr rest ih =>
    intro q q' i i' stk' h
    cases hfb : fr.is_backtrackable with
    | false =>
      simp only [backtrackLoop, hfb, Bool.false_eq_true, if_false] at h
      obtain ⟨h1, h2, h3⟩ := ih h
      refine ⟨h1, ?_, ?_⟩
      · rw [h2]; simp
      · rw [h3, framesSum_cons, Nat.sub_sub]
    | true =>
      cases hl : fr.consumptions.getLast? with
      | none =>
        simp only [backtrackLoop, hfb, if_true, hl] at h
        obtain ⟨h1, h2, h3⟩ := ih h
        have hnil : fr.consumptions = [] := List.getLast?_eq_none_iff.mp hl
        refine ⟨h1, ?_, ?_⟩
        · rw [h2]; simp
        · rw [h3, framesSum_cons, hnil]; simp
      | some n =>
        simp only [backtrackLoop, hfb, if_true, hl, Prod.mk.injEq] at h
        obtain ⟨-, -, -, hfalse⟩ := h
        exact absurd hfalse.symm (by simp)

/-- When `Re::backtrack`'s loop does find a retractable frame: the stack
splits as `dropped ++ top :: rest`, the retained `top` frame is retryable
with most recent consumption `n`, the result stack replaces `top` by the
frame with that entry removed, the dropped frames' matchers have been
returned to the queue front, and the offset has shrunk by the dropped
frames' consumptions plus `n`. -/
theorem backtrackLoop_true :
    ∀ {stk : List BacktrackState} {q q' : List Matcher} {i i' : Nat}
      {stk' : List BacktrackState},
      backtrackLoop stk q i = (stk', q', i', true) →
      ∃ dropped top rest n,
        stk = dropped ++ top :: rest ∧
        top.is_backtrackable = true ∧
        top.consumptions.getLast? = some n ∧
        stk' = ⟨true, top.matcher, top.consumptions.dropLast⟩ :: rest ∧
        q' = (dropped.map fun fr => fr.matcher).reverse ++ q ∧
        i' = i - framesSum dropped - n := by
  intro stk
  induction stk with
  | nil =>
    intro q q' i i' stk' h
    simp only [backtrackLoop, Prod.mk.injEq] at h
    obtain ⟨-, -, -, hfalse⟩ := h
    exact absurd hfalse (by simp)
  | cons fr rest ih =>
    intro q q' i i' stk' h
    cases hfb : fr.is_backtrackable with
    | false =>
      simp only [backtrackLoop, hfb, Bool.false_eq_true, if_false] at h
      obtain ⟨dropped, top, rest', n, h1, h2, h3, h4, h5, h6⟩ := ih h
      refine ⟨fr :: dropped, top, rest', n, by rw [h1]; rfl, h2, h3, h4, ?_, ?_⟩
      · rw [h5]; simp
      · rw [h6, framesSum_cons]; omega
    | true =>
      cases hl : fr.consumptions.getLast? with
      | none =>
        simp only [backtrackLoop, hfb, if_true, hl] at h
        obtain ⟨dropped, top, rest', n, h1, h2, h3, h4, h5, h6⟩ := ih h
        have hnil : fr.consumptions = [] := List.getLast?_eq_none_iff.mp hl
        refine ⟨fr :: dropped, top, rest', n, by rw [h1]; rfl, h2, h3, h4, ?_, ?_⟩
        · rw [h5]; simp
        · rw [h6, framesSum_cons, hnil]; simp [Nat.sub_sub]
      | some n =>
        simp only [backtrackLoop, hfb, if_true, hl, Prod.mk.injEq] at h
        obtain ⟨h1, h2, h3, -⟩ := h
        exact ⟨[], fr, rest, n, rfl, hfb, hl, h1.symm, by simp [h2.symm],
          by simp [framesSum, h3.symm]⟩


/-! ## Checked subtraction: no offset subtraction underflows -/

/-- Rust `usize` subtraction with an explicit underflow check: `none`
signals that `self.i -= n` would underflow below zero. -/
def csub (a b : Nat) : Option Nat := if b ≤ a then some (a - b) else none

/-- The `for n in consumptions { self.i -= n }` loop of `Re::backtrack`
with every single subtraction checked. -/
def csubList : Nat → List Nat → Option Nat
  | i, [] => some i
  | i, n :: ns =>
    match csub i n with
    | none => none
    | some j => csubList j ns

/-- `Re::backtrack`'s loop with every offset subtraction checked. -/
def backtrackLoopChecked :
    List BacktrackState → List Matcher → Nat →
      Option (List BacktrackState × List Matcher × Nat × Bool)
  | [], queue, i => some ([], queue, i, false)
  | f :: rest, queue, i =>
    if f.is_backtrackable then
      match f.consumptions.getLast? with
      | none => backtrackLoopChecked rest (f.matcher :: queue) i
      | some n =>
        match csub i n with
        | none => none
        | some j =>
          some (⟨f.is_backtrackable, f.matcher, f.consumptions.dropLast⟩ :: rest,
            queue, j, true)
    else
      match csubList i f.consumptions with
      | none => none
      | some j => backtrackLoopChecked rest (f.matcher :: queue) j

theorem csubList_of_le :
    ∀ {cs : List Nat} {i : Nat}, cs.sum ≤ i → csubList i cs = some (i - cs.sum) := by
  intro cs
  induction cs with
  | nil => intro i _; simp [csubList]
  | cons n ns ih =>
    intro i h
    simp only [List.sum_cons] at h
    have hn : n ≤ i := by omega
    have hrest : ns.sum ≤ i - n := by omega
    simp only [csubList, csub, if_pos hn, List.sum_cons]
    rw [ih hrest]
    congr 1
    omega

/-- Whenever the recorded consumptions do not exceed the current offset —
which the invariant `Inv` guarantees — the backtracking loop performs no
underflowing subtraction: the checked loop completes and agrees with the
unchecked one. -/
theorem backtrackLoopChecked_eq :
    ∀ {stk : List BacktrackState} {q : List Matcher} {i : Nat},
      framesSum stk ≤ i →
      backtrackLoopChecked stk q i = some (backtrackLoop stk q i) := by
  intro stk
  induction stk with
  | nil => intro q i _; simp [backtrackLoopChecked, backtrackLoop]
  | cons fr rest ih =>
    intro q i h
    rw [framesSum_cons] at h
    cases hfb : fr.is_backtrackable with
    | false =>
      have hsum : fr.consumptions.sum ≤ i := by omega
      simp only [backtrackLoopChecked, backtrackLoop, hfb, Bool.false_eq_true, if_false,
        csubList_of_le hsum]
      exact ih (by omega)
    | true =>
      cases hl : fr.consumptions.getLast? with
      | none =>
        simp only [backtrackLoopChecked, backtrackLoop, hfb, if_true, hl]
        have hnil : fr.consumptions = [] := List.getLast?_eq_none_iff.mp hl
        exact ih (by rw [hnil] at h; simpa using h)
      | some n =>
        have hn : n ≤ i := by
          have hmem : n ∈ fr.consumptions := List.mem_of_mem_getLast? (by simp [hl])
          have : n ≤ fr.consumptions.sum :=
            List.single_le_sum (by intro x _; exact Nat.zero_le x) _ hmem
          omega
        simp only [backtrackLoopChecked, backtrackLoop, hfb, if_true, hl, csub,
          if_pos hn]

/-! ## Node conservation and the termination measure -/

/-- Number of matcher nodes held anywhere in the state (pending queue,
current node, backtrack frames); conserved by every step of the run. -/
def nodeCount (st : Re) : Nat :=
  st.queue.length + st.current_state.toList.length + st.backtrack_stack.length

/-- Every matcher node held anywhere in the state. -/
def stateMatchers (st : Re) : List Matcher :=
  st.queue ++ st.current_state.toList ++ st.backtrack_stack.map fun fr => fr.matcher

/-- Positional digits of a state: bottom-to-top consumption-list lengths of
the backtrack stack, padded (for the still-unopened frame slots) with the
top digit `s.length + 2`. -/
def digitsOf (st : Re) (s : List Char) : List Nat :=
  (st.backtrack_stack.reverse.map fun fr => fr.consumptions.length) ++
    List.replicate (nodeCount st - st.backtrack_stack.length) (s.length + 2)

/-- Big-endian base-`B` value of a digit list. -/
def valB (B : Nat) (l : List Nat) : Nat := l.foldl (fun a d => a * B + d) 0

/-- The termination measure of the matcher loop: the base-`(s.length + 3)`
value of the state's digits.  Every continuing loop iteration strictly
decreases it. -/
def phi (st : Re) (s : List Char) : Nat := valB (s.length + 3) (digitsOf st s)

theorem valB_foldl (B : Nat) :
    ∀ (l : List Nat) (a : Nat),
      l.foldl (fun a d => a * B + d) a = a * B ^ l.length + valB B l := by
  intro l
  induction l with
  | nil => intro a; simp [valB]
  | cons d l ih =>
    intro a
    have h1 := ih (a * B + d)
    have h2 := ih d
    simp only [List.foldl_cons, List.length_cons]
    rw [h1]
    have : valB B (d :: l) = d * B ^ l.length + valB B l := by
      simp only [valB, List.foldl_cons]
      simpa using h2
    rw [this, pow_succ]
    ring

theorem valB_append (B : Nat) (l₁ l₂ : List Nat) :
    valB B (l₁ ++ l₂) = valB B l₁ * B ^ l₂.length + valB B l₂ := by
  simp only [valB, List.foldl_append]
  rw [valB_foldl]
  rfl

theorem valB_lt_pow {B : Nat} (hB : 1 ≤ B) :
    ∀ {l : List Nat}, (∀ d ∈ l, d < B) → valB B l < B ^ l.length := by
  intro l
  induction l with
  | nil => intro _; simp [valB]
  | cons d l ih =>
    intro h
    have hd : d < B := h d (by simp)
    have hl : valB B l < B ^ l.length := ih fun x hx => h x (by simp [hx])
    have : valB B (d :: l) = d * B ^ l.length + valB B l := by
      simp only [valB, List.foldl_cons]
      simpa using valB_foldl B l d
    rw [this, List.length_cons, pow_succ]
    calc d * B ^ l.length + valB B l < d * B ^ l.length + B ^ l.length := by omega
    _ = (d + 1) * B ^ l.length := by ring
    _ ≤ B * B ^ l.length := by
        exact Nat.mul_le_mul_right _ (by omega)
    _ = B ^ l.length * B := by ring

/-- Base-`B` comparison: with a shared prefix and equal lengths, a smaller
digit beats any tail whose digits are below the base. -/
theorem valB_lt_of_digit_lt {B : Nat} (hB : 1 ≤ B) (pre : List Nat)
    {d d' : Nat} {l₂ l₂' : List Nat} (hlen : l₂'.length = l₂.length)
    (hd : d' < d) (hdig : ∀ x ∈ l₂', x < B) :
    valB B (pre ++ d' :: l₂') < valB B (pre ++ d :: l₂) := by
  rw [valB_append, valB_append]
  have hlen2 : (d' :: l₂').length = (d :: l₂).length := by simp [hlen]
  rw [hlen2]
  have hsuffix : valB B (d' :: l₂') < valB B (d :: l₂) := by
    have h1 : valB B (d' :: l₂') = d' * B ^ l₂'.length + valB B l₂' := by
      simp only [valB, List.foldl_cons]
      simpa using valB_foldl B l₂' d'
    have h2 : valB B (d :: l₂) = d * B ^ l₂.length + valB B l₂ := by
      simp only [valB, List.foldl_cons]
      simpa using valB_foldl B l₂ d
    have h3 : valB B l₂' < B ^ l₂'.length := valB_lt_pow hB hdig
    rw [h1, h2, hlen]
    calc d' * B ^ l₂.length + valB B l₂'
        < d' * B ^ l₂.length + B ^ l₂.length := by rw [← hlen]; omega
      _ = (d' + 1) * B ^ l₂.length := by ring
      _ ≤ d * B ^ l₂.length := Nat.mul_le_mul_right _ (by omega)
      _ ≤ d * B ^ l₂.length + valB B l₂ := Nat.le_add_right _ _
  exact Nat.add_lt_add_left hsuffix _


/-- Pushing one frame (with a digit below the padding value) onto the
stack of a state that still holds a current node strictly decreases the
measure. -/
theorem phi_push {st st' : Re} {s : List Char} {cur : Matcher} {fr : BacktrackState}
    (hcur : st.current_state = some cur)
    (hstk : st'.backtrack_stack = fr :: st.backtrack_stack)
    (hN : nodeCount st' = nodeCount st)
    (hfr : fr.consumptions.length ≤ s.length + 1) :
    phi st' s < phi st s := by
  have htN : st.backtrack_stack.length + 1 ≤ nodeCount st := by
    unfold nodeCount
    rw [hcur]
    simp
    omega
  unfold phi digitsOf
  rw [hstk, hN, List.reverse_cons, List.map_append, List.length_cons]
  have hrep : nodeCount st - st.backtrack_stack.length
      = (nodeCount st - (st.backtrack_stack.length + 1)) + 1 := by omega
  rw [hrep, List.replicate_succ, List.append_assoc]
  simp only [List.map_cons, List.map_nil, List.singleton_append]
  exact valB_lt_of_digit_lt (by omega) _ rfl (by omega)
    (by intro x hx; rw [List.eq_of_mem_replicate hx]; omega)

/-- Retracting the most recent consumption of the retained frame (dropping
every frame above it) strictly decreases the measure. -/
theorem phi_retract {st st' : Re} {s : List Char}
    {dropped rest : List BacktrackState} {top : BacktrackState}
    (hsplit : st.backtrack_stack = dropped ++ top :: rest)
    (hstk : st'.backtrack_stack =
      ⟨true, top.matcher, top.consumptions.dropLast⟩ :: rest)
    (hne : top.consumptions ≠ [])
    (hN : nodeCount st' = nodeCount st) :
    phi st' s < phi st s := by
  have htN : st.backtrack_stack.length ≤ nodeCount st := by
    unfold nodeCount; omega
  rw [hsplit] at htN
  simp only [List.length_append, List.length_cons] at htN
  have hlen1 : 1 ≤ top.consumptions.length := by
    cases hc : top.consumptions with
    | nil => exact absurd hc hne
    | cons a l => simp
  unfold phi digitsOf
  rw [hstk, hN, hsplit]
  rw [List.reverse_append, List.reverse_cons, List.map_append, List.map_append,
    List.length_append, List.length_cons]
  rw [List.reverse_cons, List.map_append, List.length_cons]
  simp only [List.map_cons, List.map_nil, List.singleton_append, List.append_assoc,
    List.cons_append]
  rw [List.length_dropLast]
  exact valB_lt_of_digit_lt (by omega) _
    (by
      simp only [List.length_append, List.length_map, List.length_replicate,
        List.length_cons, List.length_reverse]
      omega)
    (by omega)
    (by intro x hx; rw [List.eq_of_mem_replicate hx]; omega)


/-! ## State-shape helper lemmas -/

theorem sum_ge_length {l : List Nat} (h : ∀ n ∈ l, 1 ≤ n) : l.length ≤ l.sum := by
  induction l with
  | nil => simp
  | cons n ns ih =>
    have h1 : 1 ≤ n := h n (by simp)
    have h2 := ih fun x hx => h x (by simp [hx])
    simp only [List.length_cons, List.sum_cons]
    omega

theorem tail_head_len {α : Type} (q : List α) :
    q.tail.length + q.head?.toList.length = q.length := by
  cases q <;> simp

theorem mem_of_head?_toList {α : Type} {a : α} {q : List α}
    (h : a ∈ q.head?.toList) : a ∈ q := by
  cases q with
  | nil => simp at h
  | cons x xs => simp at h; simp [h]

theorem mem_of_tail {α : Type} {a : α} {q : List α} (h : a ∈ q.tail) : a ∈ q := by
  cases q with
  | nil => simp at h
  | cons x xs => exact List.mem_cons_of_mem _ h

theorem getLast?_decomp {l : List Nat} {n : Nat} (h : l.getLast? = some n) :
    l.dropLast ++ [n] = l :=
  List.dropLast_append_getLast? n (by simp [h])

theorem getLast?_sum {l : List Nat} {n : Nat} (h : l.getLast? = some n) :
    l.sum = l.dropLast.sum + n := by
  conv_lhs => rw [← getLast?_decomp h]
  simp

/-- The state produced by every frame-pushing branch of `stepOnce`: the
offset moves to `j`, the next pending node is popped into `current_state`,
and the new frame `fr` lands on top of the backtrack stack. -/
def pushState (st : Re) (j : Nat) (fr : BacktrackState) : Re :=
  { i := j, queue := st.queue.tail, current_state := st.queue.head?,
    backtrack_stack := fr :: st.backtrack_stack }

/-- Pushing a well-formed frame whose consumption total accounts exactly
for the offset move preserves the invariant, conserves the node count,
strictly decreases the measure, and introduces no new matcher nodes. -/
theorem pushState_all {st : Re} {s : List Char} {cur : Matcher}
    {fr : BacktrackState} {j : Nat}
    (hcur : st.current_state = some cur) (hInv : Inv st s)
    (hfr : FrameOK fr) (hfrm : fr.matcher = cur)
    (hj : j = st.i + fr.consumptions.sum) (hjle : j ≤ s.length) :
    Inv (pushState st j fr) s ∧
    nodeCount (pushState st j fr) = nodeCount st ∧
    phi (pushState st j fr) s < phi st s ∧
    ∀ m ∈ stateMatchers (pushState st j fr), m ∈ stateMatchers st := by
  obtain ⟨hsum, hle, hfrs⟩ := hInv
  have hcount : nodeCount (pushState st j fr) = nodeCount st := by
    unfold nodeCount pushState
    rw [hcur]
    cases st.queue <;> simp [Option.toList] <;> omega
  refine ⟨⟨?_, hjle, ?_⟩, hcount, ?_, ?_⟩
  · show framesSum (fr :: st.backtrack_stack) = j
    rw [framesSum_cons, hsum]
    omega
  · intro f hf
    rcases List.mem_cons.mp hf with h | h
    · rw [h]; exact hfr
    · exact hfrs f h
  · refine phi_push hcur rfl hcount ?_
    have := hfr.2
    omega
  · intro m hm
    unfold stateMatchers pushState at hm
    simp only [List.map_cons, hfrm] at hm
    unfold stateMatchers
    rw [hcur]
    rcases List.mem_append.mp hm with hm' | hmst
    · rcases List.mem_append.mp hm' with hmt | hmh
      · exact List.mem_append.mpr (Or.inl (List.mem_append.mpr
          (Or.inl (mem_of_tail hmt))))
      · exact List.mem_append.mpr (Or.inl (List.mem_append.mpr
          (Or.inl (mem_of_head?_toList hmh))))
    · rcases List.mem_cons.mp hmst with heq | hmrest
      · exact List.mem_append.mpr (Or.inl (List.mem_append.mpr
          (Or.inr (by simp [heq]))))
      · exact List.mem_append.mpr (Or.inr hmrest)

/-- A successful `Re::backtrack` preserves the invariant, conserves the
node count, strictly decreases the measure, and introduces no new matcher
nodes. -/
theorem backtrack_true_all {st st2 : Re} {s : List Char} {cur : Matcher}
    (hcur : st.current_state = some cur) (hInv : Inv st s)
    (hb : st.backtrack cur = (st2, true)) :
    Inv st2 s ∧ nodeCount st2 = nodeCount st ∧ phi st2 s < phi st s ∧
    ∀ m ∈ stateMatchers st2, m ∈ stateMatchers st := by
  obtain ⟨hsum, hle, hfrs⟩ := hInv
  unfold Re.backtrack at hb
  rcases hbl : backtrackLoop st.backtrack_stack (cur :: st.queue) st.i with
    ⟨stk₂, q₂, j₂, flag⟩
  rw [hbl] at hb
  cases flag with
  | false => simp at hb
  | true =>
    simp only [Prod.mk.injEq] at hb
    obtain ⟨hst2, -⟩ := hb
    obtain ⟨dropped, top, rest, n, hsplit, htop, hlast, hstk₂, hq₂, hj₂⟩ :=
      backtrackLoop_true hbl
    have htopOK : FrameOK top := hfrs top (by rw [hsplit]; simp)
    have htop1 : ∀ x ∈ top.consumptions, 1 ≤ x := htopOK.1 htop
    have hnmem : n ∈ top.consumptions := List.mem_of_mem_getLast? (by simp [hlast])
    have hn1 : 1 ≤ n := htop1 n hnmem
    have hnle : n ≤ top.consumptions.sum :=
      List.single_le_sum (fun x _ => Nat.zero_le x) _ hnmem
    have hsumsplit : framesSum dropped + (top.consumptions.sum + framesSum rest)
        = st.i := by
      rw [← hsum, hsplit, framesSum_append, framesSum_cons]
    have hdropsum : top.consumptions.dropLast.sum = top.consumptions.sum - n := by
      have := getLast?_sum hlast
      omega
    have hmodsum : framesSum stk₂ = top.consumptions.dropLast.sum + framesSum rest := by
      rw [hstk₂, framesSum_cons]
    have hq₂len : q₂.length = dropped.length + (st.queue.length + 1) := by
      rw [hq₂]; simp
    have hthq₂ := tail_head_len q₂
    have hstk316 : st.backtrack_stack.length = dropped.length + (rest.length + 1) := by
      rw [hsplit]; simp
    have hi2 : st2.i = j₂ := by rw [← hst2]
    have hiq : st2.queue = q₂.tail := by rw [← hst2]
    have hic : st2.current_state = q₂.head? := by rw [← hst2]
    have his : st2.backtrack_stack = stk₂ := by rw [← hst2]
    have hone : (some cur : Option Matcher).toList.length = 1 := rfl
    have hcount : nodeCount st2 = nodeCount st := by
      unfold nodeCount
      rw [hiq, hic, his, hstk₂, hcur, hone]
      simp only [List.length_cons]
      omega
    have hne : top.consumptions ≠ [] := by
      intro hnil
      rw [hnil] at hlast
      simp at hlast
    refine ⟨⟨?_, ?_, ?_⟩, hcount, ?_, ?_⟩
    · -- the retained consumptions still account exactly for the offset
      rw [hi2, his, hmodsum, hj₂, hdropsum]
      omega
    · -- the offset only shrank
      rw [hi2, hj₂]
      omega
    · -- every remaining frame is still well formed
      rw [his, hstk₂]
      intro f hf
      rcases List.mem_cons.mp hf with hf | hf
      · subst hf
        have hall : ∀ x ∈ top.consumptions.dropLast, 1 ≤ x := fun x hx =>
          htop1 x (List.dropLast_subset _ hx)
        have hsl := sum_ge_length hall
        refine ⟨fun _ x hx => hall x hx, ?_⟩
        show top.consumptions.dropLast.length ≤ top.consumptions.dropLast.sum + 1
        omega
      · have hfmem : f ∈ st.backtrack_stack := by
          rw [hsplit]
          exact List.mem_append_right _ (List.mem_cons_of_mem _ hf)
        exact hfrs f hfmem
    · -- the measure strictly decreases
      exact phi_retract hsplit (his.trans hstk₂) hne hcount
    · -- no new matcher nodes appear
      have hq : ∀ x, x ∈ q₂ → x ∈ stateMatchers st := by
        intro x hx
        rw [hq₂] at hx
        rcases List.mem_append.mp hx with hxd | hxc
        · rw [List.mem_reverse] at hxd
          obtain ⟨fr, hfrd, hfx⟩ := List.mem_map.mp hxd
          have hfr' : fr ∈ st.backtrack_stack := by
            rw [hsplit]; exact List.mem_append_left _ hfrd
          exact List.mem_append.mpr (Or.inr (List.mem_map.mpr ⟨fr, hfr', hfx⟩))
        · rcases List.mem_cons.mp hxc with hxcur | hxq
          · subst hxcur
            refine List.mem_append.mpr (Or.inl (List.mem_append.mpr (Or.inr ?_)))
            rw [hcur]
            simp
          · exact List.mem_append.mpr (Or.inl (List.mem_append.mpr (Or.inl hxq)))
      intro m hm
      unfold stateMatchers at hm
      rw [hiq, hic, his] at hm
      rcases List.mem_append.mp hm with hm' | hmst
      · rcases List.mem_append.mp hm' with hmt | hmh
        · exact hq m (mem_of_tail hmt)
        · exact hq m (mem_of_head?_toList hmh)
      · rw [hstk₂, List.map_cons] at hmst
        rcases List.mem_cons.mp hmst with heq | hmrest
        · have htopmem : top ∈ st.backtrack_stack := by
            rw [hsplit]
            exact List.mem_append_right _ (List.mem_cons_self _ _)
          exact List.mem_append.mpr (Or.inr (List.mem_map.mpr ⟨top, htopmem, heq.symm⟩))
        · obtain ⟨fr, hfrd, hfx⟩ := List.mem_map.mp hmrest
          have hfr' : fr ∈ st.backtrack_stack := by
            rw [hsplit]
            exact List.mem_append_right _ (List.mem_cons_of_mem _ hfrd)
          exact List.mem_append.mpr (Or.inr (List.mem_map.mpr ⟨fr, hfr', hfx⟩))


/-- The state a fresh `test_internal` run starts from satisfies the
invariant. -/
theorem Inv_init (items : List Matcher) (s : List Char) :
    Inv { i := 0, queue := items.tail, current_state := items.head?,
          backtrack_stack := [] } s := by
  refine ⟨rfl, Nat.zero_le _, ?_⟩
  intro fr hfr
  simp at hfr

/-- What the greedy loop's stop value satisfies, given that the
accumulated consumptions are all real. -/
theorem greedyStop_post (cur : Matcher) {i : Nat} {cs : List Nat}
    (hcs1 : ∀ n ∈ cs, 1 ≤ n) :
    ∀ {i' : Nat} {cs' : List Nat} {bb : Bool},
      greedyStop i cs = (i', cs', bb) →
      i' = i ∧ cs'.sum = cs.sum ∧ FrameOK ⟨bb, cur, cs'⟩ := by
  intro i' cs' bb h
  unfold greedyStop at h
  by_cases hcs : cs.isEmpty
  · have hnil : cs = [] := List.isEmpty_iff.mp hcs
    rw [if_pos hcs] at h
    obtain ⟨rfl, rfl, rfl⟩ := Prod.mk.injEq .. ▸ h
    refine ⟨rfl, by simp [hnil], ?_, by simp⟩
    intro hcontr
    simp at hcontr
  · rw [if_neg hcs] at h
    obtain ⟨rfl, rfl, rfl⟩ := Prod.mk.injEq .. ▸ h
    refine ⟨rfl, rfl, fun _ => hcs1, ?_⟩
    show cs.length ≤ cs.sum + 1
    have := sum_ge_length hcs1
    omega


/-- Grand matcher postcondition, by induction on fuel: no call returns an
error; a match attempt never moves the offset past the end of the subject;
the greedy loop accounts exactly for the offset it advances and builds a
well-formed frame; every continuing step of the node loop preserves the
invariant, conserves the node count, strictly decreases the measure, and
invents no matcher nodes; and a finished run reports an offset within the
subject. -/
theorem post_all : ∀ f : Nat,
    (∀ (m : Matcher) (s : List Char) (i : Nat) (b : Bool) (c : Nat),
      matchesStringAtIndex f m s i = some (.ok (b, c)) → c = 0 ∨ i + c ≤ s.length) ∧
    (∀ (m : Matcher) (s : List Char) (i : Nat) (e : String),
      matchesStringAtIndex f m s i ≠ some (.error e)) ∧
    (∀ (items : List Matcher) (s : List Char) (b : Bool) (j : Nat),
      testInternal f items s = some (.ok (b, j)) → j ≤ s.length) ∧
    (∀ (items : List Matcher) (s : List Char) (e : String),
      testInternal f items s ≠ some (.error e)) ∧
    (∀ (cur : Matcher) (s : List Char) (i : Nat) (cs : List Nat) (i' : Nat)
      (cs' : List Nat) (bb : Bool),
      greedy f cur s i cs = some (.ok (i', cs', bb)) → i ≤ s.length →
      (∀ n ∈ cs, 1 ≤ n) →
      i' ≤ s.length ∧ i + cs'.sum = i' + cs.sum ∧ FrameOK ⟨bb, cur, cs'⟩) ∧
    (∀ (cur : Matcher) (s : List Char) (i : Nat) (cs : List Nat) (e : String),
      greedy f cur s i cs ≠ some (.error e)) ∧
    (∀ (cur : Matcher) (st : Re) (s : List Char) (st' : Re),
      stepOnce f cur st s = some (.ok (.inl st')) → st.current_state = some cur →
      Inv st s →
      Inv st' s ∧ nodeCount st' = nodeCount st ∧ phi st' s < phi st s ∧
        ∀ m ∈ stateMatchers st', m ∈ stateMatchers st) ∧
    (∀ (cur : Matcher) (st : Re) (s : List Char) (b : Bool) (j : Nat),
      stepOnce f cur st s = some (.ok (.inr (b, j))) → Inv st s → j ≤ s.length) ∧
    (∀ (cur : Matcher) (st : Re) (s : List Char) (e : String),
      stepOnce f cur st s ≠ some (.error e)) ∧
    (∀ (st : Re) (s : List Char) (b : Bool) (j : Nat),
      runLoop f st s = some (.ok (b, j)) → Inv st s → j ≤ s.length) ∧
    (∀ (st : Re) (s : List Char) (e : String),
      runLoop f st s ≠ some (.error e)) := by
  intro f
  induction f with
  | zero =>
    refine ⟨?_, ?_, ?_, ?_, ?_, ?_, ?_, ?_, ?_, ?_, ?_⟩
    · intro m s i b c h; rw [matchesStringAtIndex_zero] at h; simp at h
    · intro m s i e h; rw [matchesStringAtIndex_zero] at h; simp at h
    · intro items s b j h; rw [testInternal_zero] at h; simp at h
    · intro items s e h; rw [testInternal_zero] at h; simp at h
    · intro cur s i cs i' cs' bb h; rw [greedy_zero] at h; simp at h
    · intro cur s i cs e h; rw [greedy_zero] at h; simp at h
    · intro cur st s st' h; rw [stepOnce_zero] at h; simp at h
    · intro cur st s b j h; rw [stepOnce_zero] at h; simp at h
    · intro cur st s e h; rw [stepOnce_zero] at h; simp at h
    · intro st s b j h; rw [runLoop_zero] at h; simp at h
    · intro st s e h; rw [runLoop_zero] at h; simp at h
  | succ f ih =>
    obtain ⟨ihM1, ihM2, ihT1, ihT2, ihG1, ihG2, ihS1, ihS2, ihS3, ihR1, ihR2⟩ := ih
    have M1 : ∀ (m : Matcher) (s : List Char) (i : Nat) (b : Bool) (c : Nat),
        matchesStringAtIndex (f + 1) m s i = some (.ok (b, c)) →
        c = 0 ∨ i + c ≤ s.length := by
      intro m s i b c h
      rw [matchesStringAtIndex_succ] at h
      by_cases hc : s.length ≤ i
      · rw [dif_pos hc] at h
        simp at h
        omega
      · rw [dif_neg hc] at h
        cases hk : m.matcher_kind with
        | Wildcard =>
          simp only [hk] at h
          simp at h
          omega
        | Element ch =>
          simp only [hk] at h
          by_cases hch : ch = s.get ⟨i, Nat.lt_of_not_le hc⟩
          · rw [if_pos hch] at h; simp at h; omega
          · rw [if_neg hch] at h; simp at h; omega
        | Group items =>
          simp only [hk] at h
          have := ihT1 _ _ _ _ h
          rw [List.length_drop] at this
          omega
    have M2 : ∀ (m : Matcher) (s : List Char) (i : Nat) (e : String),
        matchesStringAtIndex (f + 1) m s i ≠ some (.error e) := by
      intro m s i e h
      rw [matchesStringAtIndex_succ] at h
      by_cases hc : s.length ≤ i
      · rw [dif_pos hc] at h; simp at h
      · rw [dif_neg hc] at h
        cases hk : m.matcher_kind with
        | Wildcard => simp only [hk] at h; simp at h
        | Element ch =>
          simp only [hk] at h
          by_cases hch : ch = s.get ⟨i, Nat.lt_of_not_le hc⟩
          · rw [if_pos hch] at h; simp at h
          · rw [if_neg hch] at h; simp at h
        | Group items => simp only [hk] at h; exact ihT2 _ _ _ h
    have T1 : ∀ (items : List Matcher) (s : List Char) (b : Bool) (j : Nat),
        testInternal (f + 1) items s = some (.ok (b, j)) → j ≤ s.length := by
      intro items s b j h
      rw [testInternal_succ] at h
      exact ihR1 _ _ _ _ h (Inv_init items s)
    have T2 : ∀ (items : List Matcher) (s : List Char) (e : String),
        testInternal (f + 1) items s ≠ some (.error e) := by
      intro items s e h
      rw [testInternal_succ] at h
      exact ihR2 _ _ _ h
    have G1 : ∀ (cur : Matcher) (s : List Char) (i : Nat) (cs : List Nat) (i' : Nat)
        (cs' : List Nat) (bb : Bool),
        greedy (f + 1) cur s i cs = some (.ok (i', cs', bb)) → i ≤ s.length →
        (∀ n ∈ cs, 1 ≤ n) →
        i' ≤ s.length ∧ i + cs'.sum = i' + cs.sum ∧ FrameOK ⟨bb, cur, cs'⟩ := by
      intro cur s i cs i' cs' bb h hi hcs1
      by_cases hc : s.length ≤ i
      · rw [greedy_succ_exhausted hc] at h
        have hGS : greedyStop i cs = (i', cs', bb) := by simpa using h
        obtain ⟨g1, g2, g3⟩ := greedyStop_post cur hcs1 hGS
        exact ⟨by omega, by omega, g3⟩
      · cases hm : matchesStringAtIndex f cur s i with
        | none => rw [greedy_succ_none hc hm] at h; simp at h
        | some v =>
          cases v with
          | error e => exact absurd hm (ihM2 _ _ _ _)
          | ok p =>
            obtain ⟨b0, c0⟩ := p
            by_cases hbc : b0 = false ∨ c0 = 0
            · rw [greedy_succ_stop hc hm hbc] at h
              have hGS : greedyStop i cs = (i', cs', bb) := by simpa using h
              obtain ⟨g1, g2, g3⟩ := greedyStop_post cur hcs1 hGS
              exact ⟨by omega, by omega, g3⟩
            · rw [greedy_succ_go hc hm hbc] at h
              have hc0 : c0 ≠ 0 := fun h0 => hbc (Or.inr h0)
              have hb : i + c0 ≤ s.length := by
                rcases ihM1 _ _ _ _ _ hm with h0 | h0
                · exact absurd h0 hc0
                · exact h0
              have hcs1' : ∀ n ∈ cs ++ [c0], 1 ≤ n := by
                intro x hx
                rcases List.mem_append.mp hx with hx | hx
                · exact hcs1 x hx
                · rw [List.mem_singleton] at hx; omega
              obtain ⟨g1, g2, g3⟩ := ihG1 _ _ _ _ _ _ _ h hb hcs1'
              refine ⟨g1, ?_, g3⟩
              rw [List.sum_append, List.sum_cons, List.sum_nil] at g2
              omega
    have G2 : ∀ (cur : Matcher) (s : List Char) (i : Nat) (cs : List Nat) (e : String),
        greedy (f + 1) cur s i cs ≠ some (.error e) := by
      intro cur s i cs e h
      by_cases hc : s.length ≤ i
      · rw [greedy_succ_exhausted hc] at h; simp at h
      · cases hm : matchesStringAtIndex f cur s i with
        | none => rw [greedy_succ_none hc hm] at h; simp at h
        | some v =>
          cases v with
          | error e2 => exact absurd hm (ihM2 _ _ _ _)
          | ok p =>
            obtain ⟨b0, c0⟩ := p
            by_cases hbc : b0 = false ∨ c0 = 0
            · rw [greedy_succ_stop hc hm hbc] at h; simp at h
            · rw [greedy_succ_go hc hm hbc] at h
              exact absurd h (ihG2 _ _ _ _ _)
    have S1 : ∀ (cur : Matcher) (st : Re) (s : List Char) (st' : Re),
        stepOnce (f + 1) cur st s = some (.ok (.inl st')) →
        st.current_state = some cur → Inv st s →
        Inv st' s ∧ nodeCount st' = nodeCount st ∧ phi st' s < phi st s ∧
          ∀ m ∈ stateMatchers st', m ∈ stateMatchers st := by
      intro cur st s st' h hcur hInv
      cases hq : cur.quantifier with
      | ExactlyOne =>
        cases hm : matchesStringAtIndex f cur s st.i with
        | none => rw [stepOnce_one_none hq hm] at h; simp at h
        | some v =>
          cases v with
          | error e => exact absurd hm (ihM2 _ _ _ _)
          | ok p =>
            obtain ⟨b0, c0⟩ := p
            cases b0 with
            | true =>
              rw [stepOnce_one_ok hq hm] at h
              obtain rfl := Sum.inl.inj (Except.ok.inj (Option.some.inj h))
              have hfr : FrameOK (⟨false, cur, [c0]⟩ : BacktrackState) := by
                refine ⟨fun hcontr => absurd hcontr (by simp), ?_⟩
                show [c0].length ≤ [c0].sum + 1
                simp
              have hjle : st.i + c0 ≤ s.length := by
                rcases ihM1 _ _ _ _ _ hm with h0 | h0
                · have := hInv.2.1; omega
                · exact h0
              exact pushState_all hcur hInv hfr rfl (by simp) hjle
            | false =>
              rcases hbt : st.backtrack cur with ⟨st2, could⟩
              cases could with
              | true =>
                rw [stepOnce_one_fail_bt hq hm hbt] at h
                obtain rfl := Sum.inl.inj (Except.ok.inj (Option.some.inj h))
                exact backtrack_true_all hcur hInv hbt
              | false =>
                rw [stepOnce_one_fail_nobt hq hm hbt] at h
                simp at h
      | ZeroOrOne =>
        by_cases hc : s.length ≤ st.i
        · rw [stepOnce_opt_exhausted hq hc] at h
          obtain rfl := Sum.inl.inj (Except.ok.inj (Option.some.inj h))
          have hfr : FrameOK (⟨false, cur, [0]⟩ : BacktrackState) := by
            refine ⟨fun hcontr => absurd hcontr (by simp), ?_⟩
            show [0].length ≤ [0].sum + 1
            simp
          exact pushState_all hcur hInv hfr rfl (by simp) (by have := hInv.2.1; omega)
        · cases hm : matchesStringAtIndex f cur s st.i with
          | none => rw [stepOnce_opt_none hq hc hm] at h; simp at h
          | some v =>
            cases v with
            | error e => exact absurd hm (ihM2 _ _ _ _)
            | ok p =>
              obtain ⟨b0, c0⟩ := p
              rw [stepOnce_opt_attempt hq hc hm] at h
              obtain rfl := Sum.inl.inj (Except.ok.inj (Option.some.inj h))
              have hfr : FrameOK
                  (⟨b0 && decide (0 < c0), cur, [c0]⟩ : BacktrackState) := by
                refine ⟨?_, ?_⟩
                · intro hcontr x hx
                  rw [List.mem_singleton] at hx
                  subst hx
                  have hd := (Bool.and_eq_true _ _).mp hcontr
                  have := of_decide_eq_true hd.2
                  omega
                · show [c0].length ≤ [c0].sum + 1
                  simp
              have hjle : st.i + c0 ≤ s.length := by
                rcases ihM1 _ _ _ _ _ hm with h0 | h0
                · have := hInv.2.1; omega
                · exact h0
              exact pushState_all hcur hInv hfr rfl (by simp) hjle
      | ZeroOrMore =>
        cases hg : greedy f cur s st.i [] with
        | none => rw [stepOnce_star_none hq hg] at h; simp at h
        | some v =>
          cases v with
          | error e => exact absurd hg (ihG2 _ _ _ _ _)
          | ok p =>
            obtain ⟨i2, cs2, bb2⟩ := p
            rw [stepOnce_star_push hq hg] at h
            obtain rfl := Sum.inl.inj (Except.ok.inj (Option.some.inj h))
            obtain ⟨g1, g2, g3⟩ :=
              ihG1 _ _ _ _ _ _ _ hg hInv.2.1 (by intro x hx; simp at hx)
            refine pushState_all hcur hInv g3 rfl ?_ g1
            show i2 = st.i + cs2.sum
            simp at g2
            omega
    have S2 : ∀ (cur : Matcher) (st : Re) (s : List Char) (b : Bool) (j : Nat),
        stepOnce (f + 1) cur st s = some (.ok (.inr (b, j))) → Inv st s →
        j ≤ s.length := by
      intro cur st s b j h hInv
      cases hq : cur.quantifier with
      | ExactlyOne =>
        cases hm : matchesStringAtIndex f cur s st.i with
        | none => rw [stepOnce_one_none hq hm] at h; simp at h
        | some v =>
          cases v with
          | error e => exact absurd hm (ihM2 _ _ _ _)
          | ok p =>
            obtain ⟨b0, c0⟩ := p
            cases b0 with
            | true => rw [stepOnce_one_ok hq hm] at h; simp at h
            | false =>
              rcases hbt : st.backtrack cur with ⟨st2, could⟩
              cases could with
              | true => rw [stepOnce_one_fail_bt hq hm hbt] at h; simp at h
              | false =>
                rw [stepOnce_one_fail_nobt hq hm hbt] at h
                simp at h
                have := hInv.2.1
                omega
      | ZeroOrOne =>
        by_cases hc : s.length ≤ st.i
        · rw [stepOnce_opt_exhausted hq hc] at h; simp at h
        · cases hm : matchesStringAtIndex f cur s st.i with
          | none => rw [stepOnce_opt_none hq hc hm] at h; simp at h
          | some v =>
            cases v with
            | error e => exact absurd hm (ihM2 _ _ _ _)
            | ok p =>
              obtain ⟨b0, c0⟩ := p
              rw [stepOnce_opt_attempt hq hc hm] at h
              simp at h
      | ZeroOrMore =>
        cases hg : greedy f cur s st.i [] with
        | none => rw [stepOnce_star_none hq hg] at h; simp at h
        | some v =>
          cases v with
          | error e => exact absurd hg (ihG2 _ _ _ _ _)
          | ok p =>
            obtain ⟨i2, cs2, bb2⟩ := p
            rw [stepOnce_star_push hq hg] at h
            simp at h
    have S3 : ∀ (cur : Matcher) (st : Re) (s : List Char) (e : String),
        stepOnce (f + 1) cur st s ≠ some (.error e) := by
      intro cur st s e h
      cases hq : cur.quantifier with
      | ExactlyOne =>
        cases hm : matchesStringAtIndex f cur s st.i with
        | none => rw [stepOnce_one_none hq hm] at h; simp at h
        | some v =>
          cases v with
          | error e2 => exact absurd hm (ihM2 _ _ _ _)
          | ok p =>
            obtain ⟨b0, c0⟩ := p
            cases b0 with
            | true => rw [stepOnce_one_ok hq hm] at h; simp at h
            | false =>
              rcases hbt : st.backtrack cur with ⟨st2, could⟩
              cases could with
              | true => rw [stepOnce_one_fail_bt hq hm hbt] at h; simp at h
              | false => rw [stepOnce_one_fail_nobt hq hm hbt] at h; simp at h
      | ZeroOrOne =>
        by_cases hc : s.length ≤ st.i
        · rw [stepOnce_opt_exhausted hq hc] at h; simp at h
        · cases hm : matchesStringAtIndex f cur s st.i with
          | none => rw [stepOnce_opt_none hq hc hm] at h; simp at h
          | some v =>
            cases v with
            | error e2 => exact absurd hm (ihM2 _ _ _ _)
            | ok p =>
              obtain ⟨b0, c0⟩ := p
              rw [stepOnce_opt_attempt hq hc hm] at h
              simp at h
      | ZeroOrMore =>
        cases hg : greedy f cur s st.i [] with
        | none => rw [stepOnce_star_none hq hg] at h; simp at h
        | some v =>
          cases v with
          | error e2 => exact absurd hg (ihG2 _ _ _ _ _)
          | ok p =>
            obtain ⟨i2, cs2, bb2⟩ := p
            rw [stepOnce_star_push hq hg] at h
            simp at h
    have R1 : ∀ (st : Re) (s : List Char) (b : Bool) (j : Nat),
        runLoop (f + 1) st s = some (.ok (b, j)) → Inv st s → j ≤ s.length := by
      intro st s b j h hInv
      cases hcur : st.current_state with
      | none =>
        rw [runLoop_succ_done hcur] at h
        simp at h
        have := hInv.2.1
        omega
      | some cur =>
        cases hs : stepOnce f cur st s with
        | none => rw [runLoop_succ_none hcur hs] at h; simp at h
        | some v =>
          cases v with
          | error e => exact absurd hs (ihS3 _ _ _ _)
          | ok x =>
            cases x with
            | inl st2 =>
              rw [runLoop_succ_inl hcur hs] at h
              exact ihR1 _ _ _ _ h (ihS1 _ _ _ _ hs hcur hInv).1
            | inr r2 =>
              obtain ⟨b2, j2⟩ := r2
              rw [runLoop_succ_inr hcur hs] at h
              simp at h
              have := ihS2 _ _ _ _ _ hs hInv
              omega
    have R2 : ∀ (st : Re) (s : List Char) (e : String),
        runLoop (f + 1) st s ≠ some (.error e) := by
      intro st s e h
      cases hcur : st.current_state with
      | none => rw [runLoop_succ_done hcur] at h; simp at h
      | some cur =>
        cases hs : stepOnce f cur st s with
        | none => rw [runLoop_succ_none hcur hs] at h; simp at h
        | some v =>
          cases v with
          | error e2 => exact absurd hs (ihS3 _ _ _ _)
          | ok x =>
            cases x with
            | inl st2 =>
              rw [runLoop_succ_inl hcur hs] at h
              exact ihR2 _ _ _ h
            | inr r2 => rw [runLoop_succ_inr hcur hs] at h; simp at h
    exact ⟨M1, M2, T1, T2, G1, G2, S1, S2, S3, R1, R2⟩


/-! ## Named corollaries of the grand postcondition -/

theorem matches_bound {f : Nat} {m : Matcher} {s : List Char} {i : Nat}
    {b : Bool} {c : Nat} (h : matchesStringAtIndex f m s i = some (.ok (b, c))) :
    c = 0 ∨ i + c ≤ s.length := (post_all f).1 m s i b c h

theorem matches_no_error {f : Nat} (m : Matcher) (s : List Char) (i : Nat)
    (e : String) : matchesStringAtIndex f m s i ≠ some (.error e) :=
  (post_all f).2.1 m s i e

theorem testInternal_bound {f : Nat} {items : List Matcher} {s : List Char}
    {b : Bool} {j : Nat} (h : testInternal f items s = some (.ok (b, j))) :
    j ≤ s.length := (post_all f).2.2.1 items s b j h

theorem testInternal_no_error {f : Nat} (items : List Matcher) (s : List Char)
    (e : String) : testInternal f items s ≠ some (.error e) :=
  (post_all f).2.2.2.1 items s e

theorem greedy_post {f : Nat} {cur : Matcher} {s : List Char} {i : Nat}
    {cs : List Nat} {i' : Nat} {cs' : List Nat} {bb : Bool}
    (h : greedy f cur s i cs = some (.ok (i', cs', bb))) (hi : i ≤ s.length)
    (hcs : ∀ n ∈ cs, 1 ≤ n) :
    i' ≤ s.length ∧ i + cs'.sum = i' + cs.sum ∧ FrameOK ⟨bb, cur, cs'⟩ :=
  (post_all f).2.2.2.2.1 cur s i cs i' cs' bb h hi hcs

theorem greedy_no_error {f : Nat} (cur : Matcher) (s : List Char) (i : Nat)
    (cs : List Nat) (e : String) : greedy f cur s i cs ≠ some (.error e) :=
  (post_all f).2.2.2.2.2.1 cur s i cs e

/-- Every continuing iteration of the node loop preserves the invariant,
conserves the node count, strictly decreases the measure, and invents no
matcher nodes. -/
theorem stepOnce_inl_post {f : Nat} {cur : Matcher} {st : Re} {s : List Char}
    {st' : Re} (h : stepOnce f cur st s = some (.ok (.inl st')))
    (hcur : st.current_state = some cur) (hInv : Inv st s) :
    Inv st' s ∧ nodeCount st' = nodeCount st ∧ phi st' s < phi st s ∧
      ∀ m ∈ stateMatchers st', m ∈ stateMatchers st :=
  (post_all f).2.2.2.2.2.2.1 cur st s st' h hcur hInv

theorem stepOnce_inr_post {f : Nat} {cur : Matcher} {st : Re} {s : List Char}
    {b : Bool} {j : Nat} (h : stepOnce f cur st s = some (.ok (.inr (b, j))))
    (hInv : Inv st s) : j ≤ s.length :=
  (post_all f).2.2.2.2.2.2.2.1 cur st s b j h hInv

theorem stepOnce_no_error {f : Nat} (cur : Matcher) (st : Re) (s : List Char)
    (e : String) : stepOnce f cur st s ≠ some (.error e) :=
  (post_all f).2.2.2.2.2.2.2.2.1 cur st s e

theorem runLoop_bound {f : Nat} {st : Re} {s : List Char} {b : Bool} {j : Nat}
    (h : runLoop f st s = some (.ok (b, j))) (hInv : Inv st s) : j ≤ s.length :=
  (post_all f).2.2.2.2.2.2.2.2.2.1 st s b j h hInv

theorem runLoop_no_error {f : Nat} (st : Re) (s : List Char) (e : String) :
    runLoop f st s ≠ some (.error e) :=
  (post_all f).2.2.2.2.2.2.2.2.2.2 st s e

/-! ## Termination: enough fuel always exists -/

/-- Termination of the whole matcher, by strong induction on a bound for
the sizes of the matcher nodes in play, with an inner induction on the
measure `phi` for the node loop and on the remaining subject for the
greedy loop. -/
theorem term_all : ∀ k : Nat,
    (∀ m : Matcher, sizeOf m ≤ k → ∀ (s : List Char) (i : Nat),
      ∃ f r, matchesStringAtIndex f m s i = some r) ∧
    (∀ cur : Matcher, sizeOf cur ≤ k → ∀ (s : List Char) (i : Nat) (cs : List Nat),
      ∃ f r, greedy f cur s i cs = some r) ∧
    (∀ (cur : Matcher) (st : Re) (s : List Char), sizeOf cur ≤ k →
      ∃ f r, stepOnce f cur st s = some r) ∧
    (∀ (st : Re) (s : List Char), Inv st s →
      (∀ m ∈ stateMatchers st, sizeOf m ≤ k) →
      ∃ f r, runLoop f st s = some r) ∧
    (∀ items : List Matcher, (∀ m ∈ items, sizeOf m ≤ k) → ∀ s : List Char,
      ∃ f r, testInternal f items s = some r) := by
  intro k
  induction k using Nat.strong_induction_on with
  | _ k ihk =>
    have M : ∀ m : Matcher, sizeOf m ≤ k → ∀ (s : List Char) (i : Nat),
        ∃ f r, matchesStringAtIndex f m s i = some r := by
      intro m hm s i
      by_cases hc : s.length ≤ i
      · exact ⟨1, .ok (false, 0), by rw [matchesStringAtIndex_succ, dif_pos hc]⟩
      · cases m with
      | mk q kind =>
        cases hk : kind with
        | Wildcard =>
          refine ⟨1, .ok (true, 1), ?_⟩
          rw [matchesStringAtIndex_succ, dif_neg hc]
          simp [Matcher.matcher_kind, hk]
        | Element ch =>
          by_cases hch : ch = s.get ⟨i, Nat.lt_of_not_le hc⟩
          · refine ⟨1, .ok (true, 1), ?_⟩
            rw [matchesStringAtIndex_succ, dif_neg hc]
            simp only [Matcher.matcher_kind, hk]
            rw [if_pos hch]
          · refine ⟨1, .ok (false, 0), ?_⟩
            rw [matchesStringAtIndex_succ, dif_neg hc]
            simp only [Matcher.matcher_kind, hk]
            rw [if_neg hch]
        | Group items =>
          subst hk
          have hsz : ∀ m' ∈ items, sizeOf m' ≤ k - 1 := by
            intro m' hm'
            have h1 : sizeOf m' < sizeOf items := List.sizeOf_lt_of_mem hm'
            have h2 : sizeOf (Matcher.mk q (MatcherKind.Group items))
                = 1 + sizeOf q + (1 + sizeOf items) := by simp
            omega
          have hk1 : k - 1 < k := by
            have h2 : sizeOf (Matcher.mk q (MatcherKind.Group items))
                = 1 + sizeOf q + (1 + sizeOf items) := by simp
            omega
          obtain ⟨f, r, hf⟩ := (ihk (k - 1) hk1).2.2.2.2 items hsz (s.drop i)
          refine ⟨f + 1, r, ?_⟩
          rw [matchesStringAtIndex_succ, dif_neg hc]
          simpa [Matcher.matcher_kind] using hf
    have G : ∀ cur : Matcher, sizeOf cur ≤ k →
        ∀ (s : List Char) (i : Nat) (cs : List Nat),
        ∃ f r, greedy f cur s i cs = some r := by
      intro cur hcur s i cs
      have main : ∀ d : Nat, ∀ (i : Nat) (cs : List Nat), s.length - i ≤ d →
          ∃ f r, greedy f cur s i cs = some r := by
        intro d
        induction d with
        | zero =>
          intro i cs hd
          have hc : s.length ≤ i := by omega
          exact ⟨1, .ok (greedyStop i cs), by rw [greedy_succ_exhausted hc]⟩
        | succ d ihd =>
          intro i cs hd
          by_cases hc : s.length ≤ i
          · exact ⟨1, .ok (greedyStop i cs), by rw [greedy_succ_exhausted hc]⟩
          · obtain ⟨f₁, r₁, h₁⟩ := M cur hcur s i
            cases r₁ with
            | error e => exact absurd h₁ (matches_no_error _ _ _ _)
            | ok p =>
              obtain ⟨b0, c0⟩ := p
              by_cases hbc : b0 = false ∨ c0 = 0
              · exact ⟨f₁ + 1, .ok (greedyStop i cs),
                  by rw [greedy_succ_stop hc h₁ hbc]⟩
              · have hc0 : c0 ≠ 0 := fun h0 => hbc (Or.inr h0)
                have hd' : s.length - (i + c0) ≤ d := by omega
                obtain ⟨f₂, r₂, h₂⟩ := ihd (i + c0) (cs ++ [c0]) hd'
                refine ⟨max f₁ f₂ + 1, r₂, ?_⟩
                rw [greedy_succ_go hc
                  (matchesStringAtIndex_mono (le_max_left f₁ f₂) h₁) hbc]
                exact greedy_mono (le_max_right f₁ f₂) h₂
      exact main (s.length - i) i cs le_rfl
    have S : ∀ (cur : Matcher) (st : Re) (s : List Char), sizeOf cur ≤ k →
        ∃ f r, stepOnce f cur st s = some r := by
      intro cur st s hcur
      cases hq : cur.quantifier with
      | ExactlyOne =>
        obtain ⟨f₁, r₁, h₁⟩ := M cur hcur s st.i
        cases r₁ with
        | error e => exact absurd h₁ (matches_no_error _ _ _ _)
        | ok p =>
          obtain ⟨b0, c0⟩ := p
          cases b0 with
          | true => exact ⟨f₁ + 1, _, stepOnce_one_ok hq h₁⟩
          | false =>
            rcases hbt : st.backtrack cur with ⟨st2, could⟩
            cases could with
            | true => exact ⟨f₁ + 1, _, stepOnce_one_fail_bt hq h₁ hbt⟩
            | false => exact ⟨f₁ + 1, _, stepOnce_one_fail_nobt hq h₁ hbt⟩
      | ZeroOrOne =>
        by_cases hc : s.length ≤ st.i
        · exact ⟨1, _, stepOnce_opt_exhausted hq hc⟩
        · obtain ⟨f₁, r₁, h₁⟩ := M cur hcur s st.i
          cases r₁ with
          | error e => exact absurd h₁ (matches_no_error _ _ _ _)
          | ok p =>
            obtain ⟨b0, c0⟩ := p
            exact ⟨f₁ + 1, _, stepOnce_opt_attempt hq hc h₁⟩
      | ZeroOrMore =>
        obtain ⟨f₁, r₁, h₁⟩ := G cur hcur s st.i []
        cases r₁ with
        | error e => exact absurd h₁ (greedy_no_error _ _ _ _ _)
        | ok p =>
          obtain ⟨i2, cs2, bb2⟩ := p
          exact ⟨f₁ + 1, _, stepOnce_star_push hq h₁⟩
    have R : ∀ (st : Re) (s : List Char), Inv st s →
        (∀ m ∈ stateMatchers st, sizeOf m ≤ k) →
        ∃ f r, runLoop f st s = some r := by
      intro st s
      have main : ∀ n : Nat, ∀ st : Re, phi st s < n → Inv st s →
          (∀ m ∈ stateMatchers st, sizeOf m ≤ k) →
          ∃ f r, runLoop f st s = some r := by
        intro n
        induction n with
        | zero => intro st h; omega
        | succ n ihn =>
          intro st hphi hInv hsz
          cases hcur : st.current_state with
          | none => exact ⟨1, .ok (true, st.i), runLoop_succ_done hcur 0 s⟩
          | some cur =>
            have hcurmem : cur ∈ stateMatchers st := by
              unfold stateMatchers
              rw [hcur]
              refine List.mem_append.mpr (Or.inl (List.mem_append.mpr (Or.inr ?_)))
              simp
            obtain ⟨f₁, r₁, h₁⟩ := S cur st s (hsz cur hcurmem)
            cases r₁ with
            | error e => exact absurd h₁ (stepOnce_no_error _ _ _ _)
            | ok x =>
              cases x with
              | inr r2 => exact ⟨f₁ + 1, .ok r2, runLoop_succ_inr hcur h₁⟩
              | inl st2 =>
                obtain ⟨hInv2, hcount2, hphi2, hsub2⟩ :=
                  stepOnce_inl_post h₁ hcur hInv
                have hsz2 : ∀ m ∈ stateMatchers st2, sizeOf m ≤ k := fun m hm =>
                  hsz m (hsub2 m hm)
                obtain ⟨f₂, r₂, h₂⟩ := ihn st2 (by omega) hInv2 hsz2
                refine ⟨max f₁ f₂ + 1, r₂, ?_⟩
                rw [runLoop_succ_inl hcur
                  (stepOnce_mono (le_max_left f₁ f₂) h₁)]
                exact runLoop_mono (le_max_right f₁ f₂) h₂
      intro hInv hsz
      exact main (phi st s + 1) st (by omega) hInv hsz
    have T : ∀ items : List Matcher, (∀ m ∈ items, sizeOf m ≤ k) →
        ∀ s : List Char, ∃ f r, testInternal f items s = some r := by
      intro items hsz s
      have hsz' : ∀ m ∈ stateMatchers
          { i := 0, queue := items.tail, current_state := items.head?,
            backtrack_stack := [] }, sizeOf m ≤ k := by
        intro m hm
        unfold stateMatchers at hm
        simp only [List.map_nil, List.append_nil] at hm
        rcases List.mem_append.mp hm with hm | hm
        · exact hsz m (mem_of_tail hm)
        · exact hsz m (mem_of_head?_toList hm)
      obtain ⟨f, r, hf⟩ := R _ s (Inv_init items s) hsz'
      exact ⟨f + 1, r, by rw [testInternal_succ]; exact hf⟩
    exact ⟨M, G, S, R, T⟩

/-- The matcher terminates: for every compiled node sequence and every
subject there is enough fuel for `test_internal` to complete. -/
theorem testInternal_terminates (items : List Matcher) (s : List Char) :
    ∃ f r, testInternal f items s = some r := by
  refine (term_all (sizeOf items)).2.2.2.2 items ?_ s
  intro m hm
  exact le_of_lt (List.sizeOf_lt_of_mem hm)


/-! ## The claims -/

/-- C1: the claim says compiling a pattern in which a backslash is followed
by one more element appends exactly one `Literal` node and consumes both
input positions, so the escaped element is not additionally processed.  The
code violates this: its `for` loop does not skip the escaped character, so
compiling the two-character pattern `\a` yields *two* `Literal('a')` nodes,
and the drifting index `i` makes the second escape of `\a\b` be reported as
a bad escape (`re.len()` is the byte length 4 while `i` has drifted to 3).
This theorem evaluates the code at those failing inputs. -/
theorem c1_escape_double_processed :
    parse_re ['\\', 'a'] =
      .ok [Matcher.element 'a' .ExactlyOne, Matcher.element 'a' .ExactlyOne] ∧
    parse_re ['\\', 'a', '\\', 'b'] = .err "Bad escape character at index 3" :=
  ⟨rfl, rfl⟩

/-- C2: the claim says a quantifier symbol at an empty nesting level makes
compile return the `DanglingQuantifier` error, not crash.  The code
violates the first half: `stack.last_mut().unwrap().last_mut().unwrap()`
panics on the `None` of an empty level (modelled as `crashed`), for each of
`?`, `*` and `+`.  The second half — a quantifier after a node whose
quantifier is already set — does return the error, as the claim states. -/
theorem c2_dangling_quantifier_crashes :
    parse_re ['?'] = .crashed ∧ parse_re ['*'] = .crashed ∧
    parse_re ['+'] = .crashed ∧ parse_re ['(', '?'] = .crashed ∧
    parse_re ['a', '?', '*'] =
      .err "Quantifier must follow an unqualified element or group" ∧
    parse_re ['a', '*', '*'] =
      .err "Quantifier must follow an unqualified element or group" :=
  ⟨rfl, rfl, rfl, rfl, rfl, rfl⟩

/-- C3, counterexample: the claim says matching a `Group` at an offset
(including one equal to the subject length) succeeds iff the group's own
sequence fully matches some prefix of the remaining slice — in particular
an empty-prefix-matching group succeeds on an empty remainder.  False: at
`i ≥ s.length`, `matches_string_at_index` returns `(false, 0)` before ever
running the group, while the recursive run on the empty remainder succeeds.
Concretely, the empty group against the empty subject at offset 0. -/
theorem c3_group_at_end_counterexample :
    ¬ (∀ (q : Quantifier) (items : List Matcher) (s : List Char) (i fuel : Nat),
        i ≤ s.length →
        ((∃ n, matchesStringAtIndex fuel (Matcher.mk q (.Group items)) s i
            = some (.ok (true, n))) ↔
         (∃ n, testInternal fuel items (s.drop i) = some (.ok (true, n))))) := by
  intro h
  have h2 := (h .ExactlyOne [] [] 0 2 (by simp)).mpr ⟨0, rfl⟩
  obtain ⟨n, hn⟩ := h2
  have hval : matchesStringAtIndex 2 (Matcher.mk .ExactlyOne (.Group [])) [] 0
      = some (.ok (false, 0)) := rfl
  rw [hval] at hn
  simp at hn

/-- C3, amended: for offsets strictly inside the subject the `Group` match
result is exactly the recursive matcher run over the remaining slice (so
it succeeds iff the group's sequence fully matches some prefix of it); but
at an offset at or past the end of the subject the group match returns
`(false, 0)` unconditionally, even when the group's sequence matches the
empty prefix. -/
theorem c3_group_amended (q : Quantifier) (items : List Matcher) (s : List Char)
    (i fuel : Nat) :
    (i < s.length →
      matchesStringAtIndex (fuel + 1) (Matcher.mk q (.Group items)) s i
        = testInternal fuel items (s.drop i)) ∧
    (s.length ≤ i →
      matchesStringAtIndex (fuel + 1) (Matcher.mk q (.Group items)) s i
        = some (.ok (false, 0))) := by
  constructor
  · intro hlt
    rw [matchesStringAtIndex_succ, dif_neg (by omega)]
    rfl
  · intro hge
    rw [matchesStringAtIndex_succ, dif_pos hge]

theorem c3_group_amended_witness :
    matchesStringAtIndex 3 (Matcher.mk .ExactlyOne
        (.Group [Matcher.element 'a' .ExactlyOne])) ['a'] 0
      = testInternal 2 [Matcher.element 'a' .ExactlyOne] (['a'].drop 0) ∧
    matchesStringAtIndex 3 (Matcher.mk .ExactlyOne (.Group [])) [] 0
      = some (.ok (false, 0)) :=
  ⟨(c3_group_amended .ExactlyOne [Matcher.element 'a' .ExactlyOne] ['a'] 0 2).1
      (by decide),
   (c3_group_amended .ExactlyOne [] [] 0 2).2 (by decide)⟩

/-- C4: for every pattern that compiles successfully and every subject,
the matcher returns an `Ok` result — with enough fuel `test_re` completes
with `Ok`, and no amount of fuel can ever produce a match-time error. -/
theorem c4_match_never_errors (re s : String) (states : List Matcher)
    (hok : parse_re re.toList = .ok states) :
    (∃ f₀, ∀ f, f₀ ≤ f → ∃ v, test_re f re s = some (.ok v)) ∧
    (∀ f e, test_re f re s ≠ some (.err e)) := by
  constructor
  · obtain ⟨f₀, r, hr⟩ := testInternal_terminates states s.toList
    refine ⟨f₀, fun f hf => ?_⟩
    have hr' := testInternal_mono hf hr
    cases r with
    | error e => exact absurd hr (testInternal_no_error _ _ _)
    | ok p =>
      obtain ⟨b, j⟩ := p
      cases b
      · exact ⟨none, by simp only [test_re, hok, hr']⟩
      · exact ⟨some j, by simp only [test_re, hok, hr']⟩
  · intro f e h
    simp only [test_re, hok] at h
    cases ht : testInternal f states s.toList with
    | none => rw [ht] at h; simp at h
    | some v =>
      cases v with
      | error e2 => exact absurd ht (testInternal_no_error _ _ _)
      | ok p =>
        obtain ⟨b, j⟩ := p
        rw [ht] at h
        cases b <;> simp at h

theorem c4_match_never_errors_witness :
    (∃ f₀, ∀ f, f₀ ≤ f → ∃ v, test_re f "a" "b" = some (.ok v)) ∧
    (∀ f e, test_re f "a" "b" ≠ some (.err e)) :=
  c4_match_never_errors "a" "b" [Matcher.element 'a' .ExactlyOne] rfl

/-- C5: `matchPattern("a.*c", "abc") = Ok(Some(3))`: the greedy wildcard
star over-consumes and backtracking retracts one element so the trailing
literal `c` matches; any sufficient fuel gives this answer. -/
theorem c5_greedy_then_backtrack (f : Nat) (hf : 30 ≤ f) :
    test_re f "a.*c" "abc" = some (.ok (some 3)) :=
  test_re_mono hf (by rfl)

theorem c5_greedy_then_backtrack_witness :
    test_re 30 "a.*c" "abc" = some (.ok (some 3)) :=
  c5_greedy_then_backtrack 30 (by decide)

/-- C6: a `+` after a node whose quantifier is `ExactlyOne` appends a
structural duplicate of that node with `ZeroOrMore`, leaving the original
untouched (general single-step statement over the compiler loop), and
`compile("a+")` yields `[Literal('a', ExactlyOne), Literal('a', ZeroOrMore)]`. -/
theorem c6_plus_lowering :
    (∀ (re rest : List Char) (i : Nat) (lvl : List Matcher)
        (ls : List (List Matcher)) (lastElem : Matcher),
      lvl.getLast? = some lastElem → lastElem.quantifier = .ExactlyOne →
      parseLoop re ('+' :: rest) i (lvl :: ls) =
        parseLoop re rest (i + 1)
          ((lvl ++ [Matcher.mk .ZeroOrMore lastElem.matcher_kind]) :: ls)) ∧
    parse_re ['a', '+'] =
      .ok [Matcher.element 'a' .ExactlyOne, Matcher.element 'a' .ZeroOrMore] := by
  constructor
  · intro re rest i lvl ls lastElem hlast hq
    have hstep : parseLoop re ('+' :: rest) i (lvl :: ls) =
        (match lvl.getLast? with
         | none => ParseOutcome.crashed
         | some lastElem =>
           if lastElem.quantifier ≠ .ExactlyOne then
             .err "Quantifier must follow an unqualified element or group"
           else
             parseLoop re rest (i + 1)
               ((lvl ++ [Matcher.mk .ZeroOrMore lastElem.matcher_kind]) :: ls)) :=
      rfl
    rw [hstep]
    simp only [hlast]
    rw [if_neg (by simp [hq])]
  · rfl

theorem c6_plus_lowering_witness :
    parseLoop ['a', '+'] ['+'] 1 [[Matcher.element 'a' .ExactlyOne]] =
      parseLoop ['a', '+'] [] 2
        [[Matcher.element 'a' .ExactlyOne,
          Matcher.mk .ZeroOrMore (.Element 'a')]] :=
  c6_plus_lowering.1 ['a', '+'] [] 1 [Matcher.element 'a' .ExactlyOne] []
    (Matcher.element 'a' .ExactlyOne) rfl rfl

/-- C7: matching is anchored at offset 0 and never scans forward:
`matchPattern("bc", "abc")` is `Ok(None)` although `bc` occurs at offset 1. -/
theorem c7_anchored_no_scan (f : Nat) (hf : 10 ≤ f) :
    test_re f "bc" "abc" = some (.ok none) :=
  test_re_mono hf (by rfl)

theorem c7_anchored_no_scan_witness :
    test_re 10 "bc" "abc" = some (.ok none) :=
  c7_anchored_no_scan 10 (by decide)

/-- C8: evaluating a `ZeroOrOne` node never fails and never triggers
backtracking: in both branches (subject exhausted, or a single attempt with
any result) the step continues to the next pending node, the backtrack
stack only grows by the new frame, and that frame is retryable exactly when
the attempt produced a real, non-empty match (`is_match && consumed > 0`). -/
theorem c8_zero_or_one_never_fails (fuel : Nat) (cur : Matcher) (st : Re)
    (s : List Char) (hq : cur.quantifier = .ZeroOrOne) :
    (s.length ≤ st.i →
      stepOnce (fuel + 1) cur st s = some (.ok (.inl
        { i := st.i, queue := st.queue.tail, current_state := st.queue.head?,
          backtrack_stack := ⟨false, cur, [0]⟩ :: st.backtrack_stack }))) ∧
    (∀ (b : Bool) (c : Nat), ¬ s.length ≤ st.i →
      matchesStringAtIndex fuel cur s st.i = some (.ok (b, c)) →
      stepOnce (fuel + 1) cur st s = some (.ok (.inl
        { i := st.i + c, queue := st.queue.tail, current_state := st.queue.head?,
          backtrack_stack :=
            ⟨b && decide (0 < c), cur, [c]⟩ :: st.backtrack_stack }))) :=
  ⟨fun hc => stepOnce_opt_exhausted hq hc,
   fun _ _ hc hm => stepOnce_opt_attempt hq hc hm⟩

theorem c8_zero_or_one_never_fails_witness :
    stepOnce 2 (Matcher.mk .ZeroOrOne (.Element 'a'))
        { i := 0, queue := [], current_state := none, backtrack_stack := [] }
        ['a'] =
      some (.ok (.inl
        { i := 0 + 1, queue := [], current_state := none,
          backtrack_stack :=
            [⟨true && decide (0 < 1), Matcher.mk .ZeroOrOne (.Element 'a'),
              [1]⟩] })) :=
  (c8_zero_or_one_never_fails 1 (Matcher.mk .ZeroOrOne (.Element 'a'))
      { i := 0, queue := [], current_state := none, backtrack_stack := [] }
      ['a'] rfl).2 true 1 (by decide) rfl

/-- C9: throughout every matcher run the current offset equals the total of
all consumption amounts on the backtrack stack and never exceeds the
subject length (the invariant holds initially and is preserved by every
continuing step), and consequently the backtracking loop performs no
underflowing subtraction: with the recorded consumptions bounded by the
offset, the fully checked loop completes and agrees with the actual one. -/
theorem c9_offset_accounting :
    (∀ (items : List Matcher) (s : List Char),
      Inv { i := 0, queue := items.tail, current_state := items.head?,
            backtrack_stack := [] } s) ∧
    (∀ (f : Nat) (cur : Matcher) (st st' : Re) (s : List Char),
      stepOnce f cur st s = some (.ok (.inl st')) →
      st.current_state = some cur → Inv st s → Inv st' s) ∧
    (∀ (stk : List BacktrackState) (q : List Matcher) (i : Nat),
      framesSum stk ≤ i →
      backtrackLoopChecked stk q i = some (backtrackLoop stk q i)) ∧
    (∀ (st : Re) (s : List Char), Inv st s → st.i ≤ s.length) :=
  ⟨Inv_init,
   fun _ _ _ _ _ h hcur hInv => (stepOnce_inl_post h hcur hInv).1,
   fun _ _ _ h => backtrackLoopChecked_eq h,
   fun _ _ hInv => hInv.2.1⟩

theorem c9_offset_accounting_witness :
    Inv { i := 0, queue := [], current_state := none, backtrack_stack := [] }
      ([] : List Char) ∧
    backtrackLoopChecked [⟨true, Matcher.element 'a' .ExactlyOne, [1]⟩] [] 1 =
      some (backtrackLoop [⟨true, Matcher.element 'a' .ExactlyOne, [1]⟩] [] 1) ∧
    Inv { i := 0 + 1, queue := [], current_state := none,
          backtrack_stack :=
            [⟨false, Matcher.element 'a' .ExactlyOne, [1]⟩] } ['a'] :=
  ⟨c9_offset_accounting.1 [] [],
   c9_offset_accounting.2.2.1 [⟨true, Matcher.element 'a' .ExactlyOne, [1]⟩] []
     1 (by decide),
   c9_offset_accounting.2.1 2 (Matcher.element 'a' .ExactlyOne)
     { i := 0, queue := [],
       current_state := some (Matcher.element 'a' .ExactlyOne),
       backtrack_stack := [] }
     { i := 0 + 1, queue := [], current_state := none,
       backtrack_stack := [⟨false, Matcher.element 'a' .ExactlyOne, [1]⟩] }
     ['a'] rfl rfl (by decide)⟩

/-- C10: evaluation always terminates — for every node sequence and every
finite subject there is enough fuel for the whole run to complete, and
likewise the greedy `ZeroOrMore` repetition loop always completes (each
continuing iteration advances the offset by at least one element, bounded
by the subject length). -/
theorem c10_evaluation_terminates :
    (∀ (items : List Matcher) (s : List Char),
      ∃ f r, testInternal f items s = some r) ∧
    (∀ (cur : Matcher) (s : List Char) (i : Nat) (cs : List Nat),
      ∃ f r, greedy f cur s i cs = some r) :=
  ⟨testInternal_terminates,
   fun cur s i cs => (term_all (sizeOf cur)).2.1 cur le_rfl s i cs⟩

end Rx
